import Mathlib

set_option maxRecDepth 8000
set_option maxHeartbeats 2000000

/-!
Verification of the WR_scraper conjugation-scraper core
(`app/scraper_core.py`, `app/config.py`, `app/filters.py`) against its
natural-language specification.

The Python code is shallowly embedded:
* Python `dict`s (insertion ordered) become association lists
  `List (String × α)`; `dict` assignment is `dictInsert` (update in place,
  else append), so key order and overwrite semantics match CPython.
* HTML nodes reachable from a table cell become the mutual inductive
  `Node` / `NodeList`; BeautifulSoup's `get_text` becomes structural
  recursion over those trees.  Pieces of markup that the code reads only
  through `get_text(strip=True)` (headings, `<th>` labels) are modelled as
  the already-extracted strings.
* The network (`requests.get`) is an oracle `Nat → Except String String`
  giving each attempt's outcome; `time.sleep` calls are recorded as a list
  of slept durations; `urlencode` of the single `v` parameter is modelled
  as an uninterpreted plain encoding (no claim inspects the URL).
* Python exceptions become `Except` values (`ScrapeError`).
All definitions are structural (fuel is used for `str.split`), so they
evaluate by `decide` / `rfl` on concrete inputs.
-/

namespace FlashCard

/-! ## Python string primitives -/

/-- Characters matched by Python's `\s` (unicode) and by `str.strip()` /
`str.isspace()`. -/
def pySpace (c : Char) : Bool :=
  ([0x9, 0xa, 0xb, 0xc, 0xd, 0x1c, 0x1d, 0x1e, 0x1f, 0x20, 0x85, 0xa0,
    0x1680, 0x2028, 0x2029, 0x202f, 0x205f, 0x3000] : List Nat).contains c.toNat
  || (0x2000 ≤ c.toNat && c.toNat ≤ 0x200a)

/-- `s.replace("\xa0", " ")`, one character at a time. -/
def nbspToSpace (c : Char) : Char :=
  if c = '\u00a0' then ' ' else c

/-- One left-to-right pass of `re.sub(r"\s+", " ", ·)`: every maximal run of
whitespace becomes a single ordinary space.  `prevSpace` records whether the
previous input character belonged to a run already emitted. -/
def collapseAux : Bool → List Char → List Char
  | _, [] => []
  | prevSpace, c :: rest =>
    if pySpace c then
      if prevSpace then collapseAux true rest
      else ' ' :: collapseAux true rest
    else c :: collapseAux false rest

/-- Python `str.strip()` on a character list. -/
def pyStrip (l : List Char) : List Char :=
  (((l.dropWhile pySpace).reverse.dropWhile pySpace)).reverse

/-- Python `str.strip()` on a string. -/
def pyStripStr (s : String) : String :=
  ⟨pyStrip s.data⟩

/-- `scraper_core._norm_spaces`:
`re.sub(r"\s+", " ", s.replace("\xa0", " ")).strip()`. -/
def _norm_spaces (s : String) : String :=
  ⟨pyStrip (collapseAux false (s.data.map nbspToSpace))⟩

/-- Python `str.lower()` (the code only lower-cases ASCII letters in
practice; accented letters in this corpus are already lower case). -/
def pyLower (s : String) : String :=
  ⟨s.data.map Char.toLower⟩

/-- Python `str.startswith(p)`. -/
def strStartsWith (s p : String) : Bool :=
  p.data.isPrefixOf s.data

/-- Python `str.rstrip(":")`: drop every trailing colon. -/
def rstripColon (s : String) : String :=
  ⟨(s.data.reverse.dropWhile (fun c => c = ':')).reverse⟩

/-- Fuel-driven worker for Python `str.split(sep)` (with non-empty `sep`):
splits at every non-overlapping occurrence of `sep`, scanning left to
right, keeping empty parts.  Structural in `fuel` so that it reduces in the
kernel; `fuel ≥ length` makes it independent of `fuel`. -/
def splitSepF (sep : List Char) : Nat → List Char → List (List Char)
  | 0, l => [l]
  | _ + 1, [] => [[]]
  | fuel + 1, c :: rest =>
    if sep.isPrefixOf (c :: rest) ∧ sep ≠ [] then
      [] :: splitSepF sep fuel ((c :: rest).drop sep.length)
    else
      match splitSepF sep fuel rest with
      | [] => [[c]]
      | p :: ps => (c :: p) :: ps

/-- Python `str.split(sep)` on character lists. -/
def splitL (sep l : List Char) : List (List Char) :=
  splitSepF sep (l.length + 1) l

/-- Python `str.split(sep)` on strings. -/
def pySplitStr (s sep : String) : List String :=
  (splitL sep.data s.data).map (fun l => (⟨l⟩ : String))

/-- Python `s.replace(pat, "")`: remove every occurrence of `pat`. -/
def strRemoveAll (s pat : String) : String :=
  ⟨(splitL pat.data s.data).foldl (fun acc p => acc ++ p) []⟩

/-- `sep.join l` for strings (used for `" | ".join` and `", ".join`). -/
def interStr (sep : String) : List String → String
  | [] => ""
  | [s] => s
  | s :: rest => s ++ sep ++ interStr sep rest

/-- `sep`-interspersed concatenation of character lists
(the shape of `get_text` output after sentinel substitution). -/
def interL (sep : List Char) : List (List Char) → List Char
  | [] => []
  | [s] => s
  | s :: rest => s ++ sep ++ interL sep rest

/-- Code-point lexicographic comparison (Python string `<`). -/
def charListLt : List Char → List Char → Bool
  | [], [] => false
  | [], _ :: _ => true
  | _ :: _, [] => false
  | c :: cs, d :: ds =>
    if c.toNat < d.toNat then true
    else if d.toNat < c.toNat then false
    else charListLt cs ds

/-- Insert into an ascending list (code-point order, as Python `sorted`). -/
def sortInsert (s : String) : List String → List String
  | [] => [s]
  | t :: ts => if charListLt s.data t.data then s :: t :: ts
               else t :: sortInsert s ts

/-- Python `sorted` on strings (insertion sort, code-point order). -/
def sortStrings (l : List String) : List String :=
  l.foldr sortInsert []

/-! ## Python `dict` primitives (insertion-ordered association lists) -/

/-- `d[k]` / `d.get(k)`: value of the first entry with key `k`. -/
def lookupKey {α : Type} (d : List (String × α)) (k : String) : Option α :=
  match d with
  | [] => none
  | (k', v) :: rest => if k' = k then some v else lookupKey rest k

/-- `k in d`. -/
def containsKey {α : Type} (d : List (String × α)) (k : String) : Bool :=
  match d with
  | [] => false
  | (k', _) :: rest => k' == k || containsKey rest k

/-- `d[k] = v` on a Python dict: update in place if the key exists
(keeping its position), otherwise append. -/
def dictInsert {α : Type} (d : List (String × α)) (k : String) (v : α) :
    List (String × α) :=
  if containsKey d k then d.map (fun p => if p.1 = k then (k, v) else p)
  else d ++ [(k, v)]

/-- Mutate the value stored under `k` (models `result[mood][tense] = ·`,
which updates the inner dict object in place). -/
def dictUpdate {α : Type} (d : List (String × α)) (k : String) (f : α → α) :
    List (String × α) :=
  d.map (fun p => if p.1 = k then (p.1, f p.2) else p)

/-- Last-write-wins view of a pair stream: value of the last pair whose key
is `k` (what repeated dict assignment leaves behind). -/
def lastValue {α : Type} (ps : List (String × α)) (k : String) : Option α :=
  (ps.reverse.find? (fun p => p.1 == k)).map Prod.snd

/-! ## Markup cells -/

mutual
/-- A markup node inside a table cell: a text fragment, an explicit
line-break element `<br>`, or an inline element with children. -/
inductive Node : Type where
  | text (s : String)
  | br
  | elem (tag : String) (children : NodeList)

/-- List of sibling nodes (mutual with `Node` so that all recursion is
structural and kernel-reducible). -/
inductive NodeList : Type where
  | nil
  | cons (n : Node) (ns : NodeList)
end

/-- The sentinel from `lines_from_td_br_only`. -/
def TOKEN : String := "<<<BR>>>"

/-- The sentinel as a character list. -/
def TOKENL : List Char := TOKEN.data

mutual
/-- `td.get_text("", strip=False)` after every descendant `<br>` has been
`replace_with`-ed by the sentinel: concatenated text with `TOKEN` standing
for each break. -/
def nodeTextBr : Node → String
  | .text s => s
  | .br => TOKEN
  | .elem _ cs => nodesTextBr cs

def nodesTextBr : NodeList → String
  | .nil => ""
  | .cons n ns => nodeTextBr n ++ nodesTextBr ns
end

/-- `scraper_core.lines_from_td_br_only`: replace each `<br>` by the
sentinel, extract the cell's text, split on the sentinel, normalize each
part, drop empties. -/
def lines_from_td_br_only (td : NodeList) : List String :=
  let raw := nodesTextBr td
  let parts := (splitL TOKENL raw.data).map (fun l => _norm_spaces ⟨l⟩)
  parts.filter (fun p => p ≠ "")

/-- A token of cell text: a text fragment or an explicit line break.
Used only to state what the Cell Line Splitter must produce. -/
inductive Tok : Type where
  | str (s : String)
  | brk

mutual
/-- Flatten a node into its token stream: inline elements are transparent,
only `<br>` produces a break token. -/
def nodeToks : Node → List Tok
  | .text s => [.str s]
  | .br => [.brk]
  | .elem _ cs => nodesToks cs

def nodesToks : NodeList → List Tok
  | .nil => []
  | .cons n ns => nodeToks n ++ nodesToks ns
end

/-- Split a token stream at break tokens; each part is the concatenation of
its text fragments (as a character list). -/
def splitToks : List Tok → List (List Char)
  | [] => [[]]
  | .brk :: rest => [] :: splitToks rest
  | .str s :: rest =>
    match splitToks rest with
    | [] => [s.data]
    | p :: ps => (s.data ++ p) :: ps

/-- The logical-line segments of a cell: its text split at explicit
line-break elements and nowhere else, inline formatting transparent. -/
def segmentsL (td : NodeList) : List (List Char) :=
  splitToks (nodesToks td)

/-- Flat text of a token stream with the sentinel standing for each
break: the shape `get_text` produces after sentinel substitution. -/
def renderToks : List Tok → List Char
  | [] => []
  | .brk :: rest => TOKENL ++ renderToks rest
  | .str s :: rest => s.data ++ renderToks rest

/-- Modelled from the spec (§4.2): the lines the Cell Line Splitter must
return — the between-break segments, each whitespace-normalized, empty
results dropped. -/
def specLines (td : NodeList) : List String :=
  ((segmentsL td).map (fun l => _norm_spaces ⟨l⟩)).filter (fun p => p ≠ "")

/-! ## `app/config.py` -/

/-- `config.BASE`. -/
def BASE : String := "https://www.wordreference.com/conj/itverbs.aspx"

/-- `config.STRICT_CHECKS` (default configuration: non-strict). -/
def STRICT_CHECKS : Bool := false

/-- `config.EXPECTED`: expected tense names per mood (sets become lists;
only membership is ever used). -/
def EXPECTED : List (String × List String) :=
  [("indicativo", ["presente", "imperfetto", "passato remoto", "futuro semplice"]),
   ("tempi composti", ["passato prossimo", "trapassato prossimo",
                       "trapassato remoto", "futuro anteriore"]),
   ("congiuntivo", ["presente", "imperfetto", "passato", "trapassato"]),
   ("condizionale", ["presente", "passato"]),
   ("imperativo", ["presente"])]

/-- `config.PERSON_ORDER_DEFAULT`. -/
def PERSON_ORDER_DEFAULT : List String :=
  ["io", "tu", "lui, lei, Lei, egli", "noi", "voi", "loro, Loro, essi"]

/-- `config.PERSON_ORDER_IMPERATIVE`. -/
def PERSON_ORDER_IMPERATIVE : List String :=
  ["", "(tu)", "(Lei)", "(noi)", "(voi)", "(Loro)"]

/-- The canonical person order chosen in `_ordered_tense_map` lines 93–96. -/
def personOrder (mood : String) : List String :=
  if mood = "imperativo" then PERSON_ORDER_IMPERATIVE else PERSON_ORDER_DEFAULT

/-! ## Data model -/

/-- person → conjugated form (one tense's entries). -/
abbrev PersonMap := List (String × String)

/-- tense → person map (one mood's entries). -/
abbrev TenseDict := List (String × PersonMap)

/-- mood → tense → person → form. -/
abbrev Conj := List (String × TenseDict)

/-- One `<table class="neoConj">`: the resolved column-header text (after
removal of `span.arrow` decorations, `get_text(strip=True)`; `none` when
the table has no first row or no `th scope=col`), and the data rows, each
as (text of `th scope=row` if present, raw text of first `td` if present). -/
structure NeoTable : Type where
  tenseHeader : Option String
  rows : List (Option String × Option String)

/-- One `<div class="aa">` mood section: text of its first `<h4>` heading
(if any) and its `neoConj` tables. -/
structure MoodSection : Type where
  mood_h4 : Option String
  tables : List NeoTable

/-- The parsed page as the scraper reads it: first `<h3>` text, the
`table#conjtable` (rows of cells; each cell a `NodeList`), and the mood
sections. -/
structure Soup : Type where
  h3 : Option String
  conjtable : Option (List (List NodeList))
  sections : List MoodSection

/-- Equality of `Except` values is decidable when both components are
(needed to evaluate concrete scrape outcomes). -/
instance {e a : Type} [DecidableEq e] [DecidableEq a] :
    DecidableEq (Except e a) := fun x y =>
  match x, y with
  | .ok u, .ok v =>
    if h : u = v then isTrue (by rw [h]) else isFalse (by simp [h])
  | .error u, .error v =>
    if h : u = v then isTrue (by rw [h]) else isFalse (by simp [h])
  | .ok _, .error _ => isFalse (by simp)
  | .error _, .ok _ => isFalse (by simp)

/-- Errors of the pipeline: `ValueError` for an empty verb,
a re-raised `requests.RequestException`, and `AssertionError` from strict
structural checks. -/
inductive ScrapeError : Type where
  | invalidInput (msg : String)
  | fetchError (msg : String)
  | schemaViolation (msg : String)
deriving DecidableEq

/-- `scrape_conjugations`'s returned dict. -/
structure ScrapeData : Type where
  queried : String
  url : String
  model : Option String
  principal_forms : List (String × String)
  auxiliary : Option String
  conjugations : Conj
deriving DecidableEq

/-! ## `app/scraper_core.py` -/

/-- `scraper_core.build_url`: strip the verb, fail on empty, else attach it
as the single query parameter (`urlencode` modelled as plain `v=...`). -/
def build_url (verb : String) : Except ScrapeError String :=
  let v := pyStripStr verb
  if v = "" then .error (.invalidInput "Empty verb provided.")
  else .ok (BASE ++ "?" ++ "v=" ++ v)

/-- Attempt loop of `scraper_core.fetch_html` over the remaining attempt
numbers: returns (outcome, number of attempts made, sleeps performed),
where after a failed attempt `a` that is not the last, the code sleeps
`1.0 * a` units. -/
def fetchGo (outcome : Nat → Except String String) :
    List Nat → Except String String × Nat × List Nat
  | [] => (.error "", 0, [])
  | a :: rest =>
    match outcome a with
    | .ok t => (.ok t, 1, [])
    | .error e =>
      match rest with
      | [] => (.error e, 1, [])
      | _ :: _ =>
        let r := fetchGo outcome rest
        (r.1, r.2.1 + 1, a :: r.2.2)

/-- `scraper_core.fetch_html` (the HTTP client is the oracle `outcome`,
attempt numbers run from 1 to `tries`; on total failure the last
transport error is re-raised). -/
def fetch_html (outcome : Nat → Except String String) (tries : Nat) :
    Except String String × Nat × List Nat :=
  fetchGo outcome (List.range' 1 tries)

/-- The value column of the summary table's first row:
`tds[1] if len(tds) > 1 else None`, split into lines (absent cell gives no
lines). -/
def valuesColumn (restTds : List NodeList) : List String :=
  match restTds with
  | [] => []
  | values_td :: _ => lines_from_td_br_only values_td

/-- `scraper_core.parse_principal_forms`. -/
def parse_principal_forms (soup : Soup) : Option String × List (String × String) :=
  let model := soup.h3
  match soup.conjtable with
  | none => (model, [])
  | some rows =>
    match rows with
    | [] => (model, [])
    | tds :: _ =>
      match tds with
      | [] => (model, [])
      | label_td :: restTds =>
        let labels := (lines_from_td_br_only label_td).map
          (fun lbl => rstripColon (pyLower lbl))
        let values := valuesColumn restTds
        let forms := labels.enum.foldl (fun acc ilbl =>
          dictInsert acc ilbl.2
            (if ilbl.2 = "forma pronominale"
             then pyStripStr (strRemoveAll (values.getD ilbl.1 "") "⇒")
             else values.getD ilbl.1 "")) []
        (model, forms)

/-- `scraper_core._ordered_tense_map` (here `tense_map` is the extracted
person → form dict of one tense). -/
def _ordered_tense_map (tense_map : PersonMap) (mood : String) : PersonMap :=
  let desired := personOrder mood
  let ordered := desired.foldl (fun acc k =>
    match lookupKey tense_map k with
    | some v => dictInsert acc k v
    | none => acc) []
  tense_map.foldl (fun acc kv =>
    if containsKey acc kv.1 then acc else dictInsert acc kv.1 kv.2) ordered

/-- Tense-name resolution of `parse_conjugations` lines 119–128: header
text lower-cased; placeholder `"?"` when there is no header or it is
empty. -/
def tenseName (t : NeoTable) : String :=
  match t.tenseHeader with
  | none => "?"
  | some s => if pyLower s = "" then "?" else pyLower s

/-- Person → form extraction of `parse_conjugations` lines 130–139: rows
lacking the row header or the data cell are skipped; forms are
normalized. -/
def tableTenseMap (t : NeoTable) : PersonMap :=
  t.rows.foldl (fun tm row =>
    match row.1, row.2 with
    | some person, some raw => dictInsert tm person (_norm_spaces raw)
    | _, _ => tm) []

/-- The (tense name, ordered person map) pair one table contributes under
the given mood. -/
def tensePair (mood : String) (t : NeoTable) : String × PersonMap :=
  (tenseName t, _ordered_tense_map (tableTenseMap t) mood)

/-- `result[mood][tense] = ordered` for one table (body of the inner loop
of `parse_conjugations`). -/
def stepTable (mood : String) (res : Conj) (t : NeoTable) : Conj :=
  dictUpdate res mood (fun tmap =>
    dictInsert tmap (tensePair mood t).1 (tensePair mood t).2)

/-- Body of the outer loop of `parse_conjugations`: skip a section without
a heading; otherwise start the mood's dict if unseen (repeated sections
merge) and process its tables. -/
def stepSection (result : Conj) (sec : MoodSection) : Conj :=
  match sec.mood_h4 with
  | none => result
  | some hh =>
    let mood := pyLower hh
    let result := if containsKey result mood then result
                  else result ++ [(mood, [])]
    sec.tables.foldl (stepTable mood) result

/-- `scraper_core.parse_conjugations`. -/
def parse_conjugations (sections : List MoodSection) : Conj :=
  sections.foldl stepSection []

/-- `scraper_core._detect_auxiliary`. -/
def _detect_auxiliary (conjugations : Conj) : Option String :=
  let pp := (lookupKey ((lookupKey conjugations "tempi composti").getD [])
              "passato prossimo").getD []
  let io_pp := pyLower ((lookupKey pp "io").getD "")
  if strStartsWith io_pp "sono " || strStartsWith io_pp "ero "
     || strStartsWith io_pp "sarò " then some "essere"
  else if strStartsWith io_pp "ho " || strStartsWith io_pp "avevo "
     || strStartsWith io_pp "avrò " then some "avere"
  else none

/-- Message accumulation of `scraper_core._check_expected`. -/
def checkMissing (conjugations : Conj) : List String :=
  EXPECTED.foldl (fun missing mt =>
    match lookupKey conjugations mt.1 with
    | none => missing ++ ["Missing mood: " ++ mt.1]
    | some tmap =>
      let got := tmap.map Prod.fst
      let diff := mt.2.filter (fun t => !got.contains t)
      if diff.isEmpty then missing
      else missing ++ ["Missing tense(s) in " ++ mt.1 ++ ": "
                        ++ interStr ", " (sortStrings diff)]) []

/-- `scraper_core._check_expected`: on discrepancies, raise under the
strict configuration, otherwise warn to stderr (the warning text is the
`ok` payload; it is not part of any returned data). -/
def _check_expected (conjugations : Conj) (strict : Bool) :
    Except String (List String) :=
  let missing := checkMissing conjugations
  if missing.isEmpty then .ok []
  else
    let msg := interStr " | " missing
    if strict then .error msg else .ok [msg]

/-- `scraper_core.scrape_conjugations`, parameterized by the transport
oracle and the (external) HTML parser; also returns how many fetch
attempts were made. -/
def scrape_conjugations (verb : String)
    (outcome : Nat → Except String String) (parseDoc : String → Soup)
    (strict : Bool) : Except ScrapeError ScrapeData × Nat :=
  match build_url verb with
  | .error e => (.error e, 0)
  | .ok url =>
    match fetch_html outcome 2 with
    | (.error e, n, _) => (.error (.fetchError e), n)
    | (.ok html, n, _) =>
      let soup := parseDoc html
      let header := parse_principal_forms soup
      let conjugations := parse_conjugations soup.sections
      let auxiliary := _detect_auxiliary conjugations
      match _check_expected conjugations strict with
      | .error m => (.error (.schemaViolation m), n)
      | .ok _ =>
        (.ok { queried := verb, url := url, model := header.1,
               principal_forms := header.2, auxiliary := auxiliary,
               conjugations := conjugations }, n)

/-! ## `app/filters.py` -/

/-- `filters._to_set`: `None`/empty CSV gives `None`; otherwise the
stripped, lower-cased, non-empty parts (a Python set — only membership and
emptiness are ever used, so a list suffices). -/
def _to_set (csv : Option String) : Option (List String) :=
  match csv with
  | none => none
  | some csv =>
    if csv = "" then none
    else some ((((pySplitStr csv ",").map pyStripStr).filter
                  (fun p => p ≠ "")).map pyLower)

/-- Python truthiness of the optional set (`if mset and ...`): `None` and
the empty set are falsy. -/
def truthySet (s : Option (List String)) : Bool :=
  match s with
  | none => false
  | some l => !l.isEmpty

/-- Membership in the optional set. -/
def setContains (s : Option (List String)) (k : String) : Bool :=
  match s with
  | none => false
  | some l => l.contains k

/-- `filters.apply_filters`. -/
def apply_filters (data : ScrapeData) (moods tenses persons : Option String)
    (full : Bool) : ScrapeData :=
  if full then data
  else
    let mset := _to_set moods
    let tset := _to_set tenses
    let pset := _to_set persons
    let new_conj := data.conjugations.foldl (fun new_conj mt =>
      if truthySet mset && !setContains mset (pyLower mt.1) then new_conj
      else
        let new_tenses_map := mt.2.foldl (fun ntm tp =>
          if truthySet tset && !setContains tset (pyLower tp.1) then ntm
          else
            let filtered_person_map :=
              if truthySet pset then
                tp.2.foldl (fun fpm pf =>
                  if setContains pset (pyLower pf.1)
                  then dictInsert fpm pf.1 pf.2 else fpm) []
              else tp.2
            if filtered_person_map.isEmpty then ntm
            else dictInsert ntm tp.1 filtered_person_map) []
        if new_tenses_map.isEmpty then new_conj
        else dictInsert new_conj mt.1 new_tenses_map) []
    { data with conjugations := new_conj }

/-! ## Spec-shaped reference definitions (for refinement statements) -/

/-- Modelled from the spec (§4.3): pair the i-th label with the i-th value
positionally, missing values defaulting to the empty string; the label
`"forma pronominale"` gets the arrow glyph stripped and the value
trimmed. -/
def pairedFormsSpec (labels values : List String) : List (String × String) :=
  (labels.zip (values ++ List.replicate (labels.length - values.length) "")).map
    (fun lv => (lv.1, if lv.1 = "forma pronominale"
                      then pyStripStr (strRemoveAll lv.2 "⇒") else lv.2))

/-- Whether some section declares the given (lower-cased) mood name. -/
def moodDeclared (sections : List MoodSection) (mood : String) : Bool :=
  sections.any (fun sec => sec.mood_h4.map pyLower == some mood)

/-- The stream of (tense name, ordered person map) pairs that
`parse_conjugations` assigns under the given mood, across all sections
declaring that mood, in parse order. -/
def emittedTenses (sections : List MoodSection) (mood : String) :
    List (String × PersonMap) :=
  ((sections.filter (fun sec => sec.mood_h4.map pyLower == some mood)).map
    (fun sec => sec.tables.map (tensePair mood))).flatten

/-- Person-level narrowing as the spec states it (§6): keep the persons
whose lower-cased label is selected; no person selection keeps the map. -/
def personFilterSpec (pset : Option (List String)) (pm : PersonMap) : PersonMap :=
  if truthySet pset then pm.filter (fun pf => setContains pset (pyLower pf.1))
  else pm

/-- Tense-level narrowing as the spec states it: unselected tenses and
tenses whose person map becomes empty are dropped, order preserved. -/
def tenseFilterSpec (tset pset : Option (List String)) (tm : TenseDict) :
    TenseDict :=
  tm.filterMap (fun tp =>
    if truthySet tset && !setContains tset (pyLower tp.1) then none
    else
      let f := personFilterSpec pset tp.2
      if f.isEmpty then none else some (tp.1, f))

/-- Mood-level narrowing as the spec states it: unselected moods and moods
with no remaining tenses are dropped, order preserved. -/
def conjFilterSpec (mset tset pset : Option (List String)) (c : Conj) : Conj :=
  c.filterMap (fun mt =>
    if truthySet mset && !setContains mset (pyLower mt.1) then none
    else
      let ntm := tenseFilterSpec tset pset mt.2
      if ntm.isEmpty then none else some (mt.1, ntm))

/-- Dict well-formedness of a conjugation table: distinct keys at every
level (guaranteed for values coming from Python dicts). -/
def wfConj (c : Conj) : Bool :=
  (c.map Prod.fst).Nodup
  && c.all (fun mt => (mt.2.map Prod.fst).Nodup
       && mt.2.all (fun tp => (tp.2.map Prod.fst).Nodup))

/-- No mood is tense-less and no tense is person-less. -/
def noEmptyConj (c : Conj) : Bool :=
  c.all (fun mt => !mt.2.isEmpty && mt.2.all (fun tp => !tp.2.isEmpty))

/-! ## Concrete inputs used by witnesses and counterexamples -/

/-- The cell `"ho "<b>mess</b><b>o</b>` of the spec's example. -/
def cellHoMesso : NodeList :=
  .cons (.text "ho ")
    (.cons (.elem "b" (.cons (.text "mess") .nil))
      (.cons (.elem "b" (.cons (.text "o") .nil)) .nil))

/-- A cell whose text itself contains the internal sentinel. -/
def cellSentinel : NodeList :=
  .cons (.text "x<<<BR>>>y") .nil

/-- Concrete person dict extracted in the order voi, io, tu. -/
def exTenseMapC2 : PersonMap :=
  [("voi", "parlate"), ("io", "parlo"), ("tu", "parli")]

/-- A conjugation table whose `passato prossimo` of `io` is
`"sono andato"`. -/
def exConjEssere : Conj :=
  [("tempi composti", [("passato prossimo", [("io", "sono andato")])])]

/-- A conjugation table whose `passato prossimo` of `io` is
`"ho mangiato"`. -/
def exConjAvere : Conj :=
  [("tempi composti", [("passato prossimo", [("io", "ho mangiato")])])]

/-- Label cell of the example summary table: three lines. -/
def cellC6Labels : NodeList :=
  .cons (.text "Infinito:") (.cons .br
    (.cons (.text "Gerundio:") (.cons .br
      (.cons (.text "Forma pronominale:") .nil))))

/-- Value cell of the example summary table: only two lines. -/
def cellC6Values : NodeList :=
  .cons (.text "parlare") (.cons .br (.cons (.text "parlando") .nil))

/-- A summary table (`table#conjtable`) whose label column has three
lines and whose value column has only two. -/
def soupC6 : Soup :=
  { h3 := some "parlare"
    conjtable := some [[cellC6Labels, cellC6Values]]
    sections := [] }

/-- Two sections for the same mood, both containing a `presente` table;
the second table must win and the first table's `tu` entry must vanish. -/
def secsC10 : List MoodSection :=
  [{ mood_h4 := some "Indicativo"
     tables := [{ tenseHeader := some "Presente"
                  rows := [(some "io", some "parlo"), (some "tu", some "parli")] }] },
   { mood_h4 := some "indicativo"
     tables := [{ tenseHeader := some "presente"
                  rows := [(some "io", some "canto")] }] }]

/-- A soup with one mood/tense/person, used to run the orchestrator. -/
def soupC8 : Soup :=
  { h3 := none
    conjtable := none
    sections := [{ mood_h4 := some "Indicativo"
                   tables := [{ tenseHeader := some "Presente"
                                rows := [(some "io", some "parlo")] }] }] }

/-- A scrape result with one mood, one tense, two persons. -/
def dataC7 : ScrapeData :=
  { queried := "parlare", url := "u", model := none, principal_forms := []
    auxiliary := none
    conjugations := [("indicativo",
      [("presente", [("io", "parlo"), ("(Lei)", "parli")])])] }

/-- A scrape result containing a tense-less mood (possible when a mood
section has no `neoConj` tables). -/
def dataC7Degenerate : ScrapeData :=
  { queried := "x", url := "u", model := none, principal_forms := []
    auxiliary := none, conjugations := [("indicativo", [])] }

/-! ## Helper lemmas: dictionaries -/

theorem containsKey_cons {α : Type} (q : String × α) (rest : List (String × α))
    (k : String) :
    containsKey (q :: rest) k = (q.1 == k || containsKey rest k) := by
  obtain ⟨k', v⟩ := q
  rfl

theorem lookupKey_cons {α : Type} (q : String × α) (rest : List (String × α))
    (k : String) :
    lookupKey (q :: rest) k = if q.1 = k then some q.2 else lookupKey rest k := by
  obtain ⟨k', v⟩ := q
  rfl

theorem containsKey_iff_mem {α : Type} (d : List (String × α)) (k : String) :
    containsKey d k = true ↔ k ∈ d.map Prod.fst := by
  induction d with
  | nil => simp [containsKey]
  | cons q rest ih =>
    rw [List.map_cons, List.mem_cons, containsKey_cons,
      Bool.or_eq_true, beq_iff_eq, ih, eq_comm]

theorem lookupKey_mem {α : Type} {d : List (String × α)} {k : String} {v : α}
    (h : lookupKey d k = some v) : (k, v) ∈ d := by
  induction d with
  | nil => simp [lookupKey] at h
  | cons p rest ih =>
    rw [lookupKey_cons] at h
    by_cases hk : p.1 = k
    · rw [if_pos hk] at h
      have : p = (k, v) := by
        obtain ⟨k', v'⟩ := p
        simp only at hk
        simp only [Option.some.injEq] at h
        rw [hk, h]
      rw [← this]
      exact List.mem_cons_self _ _
    · rw [if_neg hk] at h
      exact List.mem_cons_of_mem _ (ih h)

theorem lookupKey_isSome_of_mem {α : Type} {d : List (String × α)}
    {p : String × α} (h : p ∈ d) : (lookupKey d p.1).isSome := by
  induction d with
  | nil => simp at h
  | cons q rest ih =>
    rw [lookupKey_cons]
    by_cases hk : q.1 = p.1
    · simp [hk]
    · rw [if_neg hk]
      rcases List.mem_cons.mp h with h | h
      · subst h; exact absurd rfl hk
      · exact ih h

theorem lookupKey_eq_of_mem_nodup {α : Type} {d : List (String × α)}
    (hn : (d.map Prod.fst).Nodup) {k : String} {v : α} (h : (k, v) ∈ d) :
    lookupKey d k = some v := by
  induction d with
  | nil => simp at h
  | cons q rest ih =>
    rw [List.map_cons, List.nodup_cons] at hn
    rw [lookupKey_cons]
    rcases List.mem_cons.mp h with h | h
    · rw [← h]; simp
    · have hk : q.1 ≠ k := by
        intro hq
        exact hn.1 (hq ▸ List.mem_map.mpr ⟨(k, v), h, rfl⟩)
      rw [if_neg hk]
      exact ih hn.2 h

theorem containsKey_append {α : Type} (d e : List (String × α)) (k : String) :
    containsKey (d ++ e) k = (containsKey d k || containsKey e k) := by
  induction d with
  | nil => simp [containsKey]
  | cons q rest ih =>
    rw [List.cons_append, containsKey_cons, containsKey_cons, ih,
      Bool.or_assoc]

theorem containsKey_eq_false_iff {α : Type} (d : List (String × α))
    (k : String) : containsKey d k = false ↔ k ∉ d.map Prod.fst := by
  rw [← containsKey_iff_mem, Bool.eq_false_iff, Ne]

theorem dictInsert_of_not_contains {α : Type} {d : List (String × α)}
    {k : String} (v : α) (h : containsKey d k = false) :
    dictInsert d k v = d ++ [(k, v)] := by
  rw [dictInsert, if_neg (by simp [h])]

theorem lookupKey_append_left {α : Type} {d : List (String × α)}
    (e : List (String × α)) {k : String}
    (h : (lookupKey d k).isSome) : lookupKey (d ++ e) k = lookupKey d k := by
  induction d with
  | nil => simp [lookupKey] at h
  | cons q rest ih =>
    rw [List.cons_append, lookupKey_cons, lookupKey_cons]
    by_cases hk : q.1 = k
    · rw [if_pos hk, if_pos hk]
    · rw [if_neg hk, if_neg hk]
      rw [lookupKey_cons, if_neg hk] at h
      exact ih h

theorem lookupKey_append_right {α : Type} {d : List (String × α)}
    (e : List (String × α)) {k : String}
    (h : containsKey d k = false) : lookupKey (d ++ e) k = lookupKey e k := by
  induction d with
  | nil => simp [lookupKey]
  | cons q rest ih =>
    rw [containsKey_cons, Bool.or_eq_false_iff] at h
    have hq : q.1 ≠ k := by
      intro hq
      rw [hq] at h
      simp at h
    rw [List.cons_append, lookupKey_cons, if_neg hq]
    exact ih h.2

/-! ## C9: fetch attempts, results, sleeps -/

/-- Any non-empty attempt list gives at least one attempt. -/
theorem fetchGo_pos (outcome : Nat → Except String String) (x : Nat)
    (l : List Nat) : 1 ≤ (fetchGo outcome (x :: l)).2.1 := by
  rw [fetchGo]
  cases outcome x with
  | ok t => simp
  | error e =>
    cases l with
    | nil => simp
    | cons y ys => simp

/-- C9 (helper): fetching over consecutive attempt numbers makes at most
`n` attempts and sleeps exactly after the non-final failed attempts
(`attempt` units after attempt number `attempt`). -/
theorem fetchGo_range (outcome : Nat → Except String String) :
    ∀ (n a : Nat),
      (fetchGo outcome (List.range' a n)).2.2
        = List.range' a ((fetchGo outcome (List.range' a n)).2.1 - 1)
      ∧ (fetchGo outcome (List.range' a n)).2.1 ≤ n := by
  intro n
  induction n with
  | zero => intro a; simp [fetchGo]
  | succ m ih =>
    intro a
    rw [List.range'_succ, fetchGo]
    cases houtcome : outcome a with
    | ok t => simp
    | error e =>
      cases m with
      | zero => simp [fetchGo]
      | succ m' =>
        have hm := ih (a + 1)
        rw [List.range'_succ] at hm ⊢
        have hpos :
            1 ≤ (fetchGo outcome ((a + 1) :: List.range' (a + 1 + 1) m')).2.1 :=
          fetchGo_pos outcome (a + 1) _
        constructor
        case right =>
          show (fetchGo outcome ((a + 1) :: List.range' (a + 1 + 1) m')).2.1 + 1
            ≤ m' + 1 + 1
          have := hm.2
          omega
        show a :: (fetchGo outcome ((a + 1) :: List.range' (a + 1 + 1) m')).2.2
          = List.range' a
              ((fetchGo outcome ((a + 1) :: List.range' (a + 1 + 1) m')).2.1 + 1 - 1)
        rw [hm.1, Nat.add_sub_cancel]
        have : (fetchGo outcome ((a + 1) :: List.range' (a + 1 + 1) m')).2.1
            = ((fetchGo outcome ((a + 1) :: List.range' (a + 1 + 1) m')).2.1 - 1) + 1 := by
          omega
        rw [this, List.range'_succ, Nat.add_sub_cancel]

/-- C9: per invocation (default `tries = 2`) the Document Fetcher makes at
most two sequential attempts; the first successful attempt's body is
returned at once with no sleep; if both attempts fail it fails with the
last transport error; the only retry (the second attempt) is preceded by a
wait of 1 unit; and in general the sleeps performed are exactly
1, 2, …, attempts−1 units. -/
theorem fetch_html_spec (outcome : Nat → Except String String) :
    (fetch_html outcome 2
      = match outcome 1 with
        | .ok t => (.ok t, 1, [])
        | .error _ =>
          match outcome 2 with
          | .ok t => (.ok t, 2, [1])
          | .error e => (.error e, 2, [1]))
    ∧ (fetch_html outcome 2).2.1 ≤ 2
    ∧ (∀ tries : Nat, (fetch_html outcome tries).2.2
        = List.range' 1 ((fetch_html outcome tries).2.1 - 1)) := by
  refine ⟨?_, ?_, ?_⟩
  · show fetchGo outcome (List.range' 1 2) = _
    have : List.range' 1 2 = [1, 2] := rfl
    rw [this]
    rw [fetchGo]
    cases outcome 1 with
    | ok t => rfl
    | error e =>
      simp only []
      rw [fetchGo]
      cases outcome 2 with
      | ok t => rfl
      | error e' => rfl
  · exact (fetchGo_range outcome 2 1).2
  · intro tries
    exact (fetchGo_range outcome tries 1).1

/-! ## C3: auxiliary inference -/

theorem head?_of_startsWith (s p : String) (c : Char)
    (hc : p.data.head? = some c) (h : strStartsWith s p = true) :
    s.data.head? = some c := by
  have hp : p.data <+: s.data := List.isPrefixOf_iff_prefix.mp h
  obtain ⟨t, ht⟩ := hp
  cases hd : p.data with
  | nil => rw [hd] at hc; simp at hc
  | cons x xs =>
    rw [hd] at hc ht
    simp only [List.head?_cons, Option.some.injEq] at hc
    subst hc
    rw [← ht]
    rfl

theorem startsWithHeadNe {s p q : String} {c d : Char}
    (hc : p.data.head? = some c) (hd : q.data.head? = some d) (hne : c ≠ d)
    (hp : strStartsWith s p = true) (hq : strStartsWith s q = true) : False := by
  have h1 := head?_of_startsWith s p c hc hp
  have h2 := head?_of_startsWith s q d hd hq
  rw [h1] at h2
  exact hne (Option.some.inj h2)

/-- The "essere" prefixes and the "avere" prefixes are mutually exclusive
(they differ in their first character). -/
theorem essereAvereExclusive (s : String)
    (he : (strStartsWith s "sono " || strStartsWith s "ero "
            || strStartsWith s "sarò ") = true)
    (ha : (strStartsWith s "ho " || strStartsWith s "avevo "
            || strStartsWith s "avrò ") = true) : False := by
  rw [Bool.or_eq_true, Bool.or_eq_true] at he ha
  rcases he with (he | he) | he <;> rcases ha with (ha | ha) | ha
  · exact startsWithHeadNe (p := "sono ") (q := "ho ") rfl rfl (by decide) he ha
  · exact startsWithHeadNe (p := "sono ") (q := "avevo ") rfl rfl (by decide) he ha
  · exact startsWithHeadNe (p := "sono ") (q := "avrò ") rfl rfl (by decide) he ha
  · exact startsWithHeadNe (p := "ero ") (q := "ho ") rfl rfl (by decide) he ha
  · exact startsWithHeadNe (p := "ero ") (q := "avevo ") rfl rfl (by decide) he ha
  · exact startsWithHeadNe (p := "ero ") (q := "avrò ") rfl rfl (by decide) he ha
  · exact startsWithHeadNe (p := "sarò ") (q := "ho ") rfl rfl (by decide) he ha
  · exact startsWithHeadNe (p := "sarò ") (q := "avevo ") rfl rfl (by decide) he ha
  · exact startsWithHeadNe (p := "sarò ") (q := "avrò ") rfl rfl (by decide) he ha

/-- C3: `_detect_auxiliary` returns `"essere"` exactly when the lower-cased
form at `["tempi composti"]["passato prossimo"]["io"]` starts with
`"sono "`, `"ero "` or `"sarò "`; `"avere"` exactly when it starts with
`"ho "`, `"avevo "` or `"avrò "`; `none` otherwise — in particular a
missing `"tempi composti"` key yields `none` rather than an error (every
step is total, using defaults for absent keys). -/
theorem detect_auxiliary_spec (conjugations : Conj) :
    (_detect_auxiliary conjugations = some "essere"
      ↔ (strStartsWith (pyLower ((lookupKey ((lookupKey
            ((lookupKey conjugations "tempi composti").getD [])
            "passato prossimo").getD []) "io").getD "")) "sono "
          || strStartsWith (pyLower ((lookupKey ((lookupKey
            ((lookupKey conjugations "tempi composti").getD [])
            "passato prossimo").getD []) "io").getD "")) "ero "
          || strStartsWith (pyLower ((lookupKey ((lookupKey
            ((lookupKey conjugations "tempi composti").getD [])
            "passato prossimo").getD []) "io").getD "")) "sarò ") = true)
    ∧ (_detect_auxiliary conjugations = some "avere"
      ↔ (strStartsWith (pyLower ((lookupKey ((lookupKey
            ((lookupKey conjugations "tempi composti").getD [])
            "passato prossimo").getD []) "io").getD "")) "ho "
          || strStartsWith (pyLower ((lookupKey ((lookupKey
            ((lookupKey conjugations "tempi composti").getD [])
            "passato prossimo").getD []) "io").getD "")) "avevo "
          || strStartsWith (pyLower ((lookupKey ((lookupKey
            ((lookupKey conjugations "tempi composti").getD [])
            "passato prossimo").getD []) "io").getD "")) "avrò ") = true)
    ∧ (_detect_auxiliary conjugations = none
      ∨ _detect_auxiliary conjugations = some "essere"
      ∨ _detect_auxiliary conjugations = some "avere")
    ∧ (lookupKey conjugations "tempi composti" = none
        → _detect_auxiliary conjugations = none) := by
  set io_pp := pyLower ((lookupKey ((lookupKey
      ((lookupKey conjugations "tempi composti").getD [])
      "passato prossimo").getD []) "io").getD "") with hio
  have hdef : _detect_auxiliary conjugations
      = (if (strStartsWith io_pp "sono " || strStartsWith io_pp "ero "
              || strStartsWith io_pp "sarò ") = true then some "essere"
         else if (strStartsWith io_pp "ho " || strStartsWith io_pp "avevo "
              || strStartsWith io_pp "avrò ") = true then some "avere"
         else none) := rfl
  refine ⟨?_, ?_, ?_, ?_⟩
  · rw [hdef]
    constructor
    · intro h
      by_cases he : (strStartsWith io_pp "sono " || strStartsWith io_pp "ero "
          || strStartsWith io_pp "sarò ") = true
      · exact he
      · rw [if_neg he] at h
        split at h <;> simp at h
    · intro he
      rw [if_pos he]
  · rw [hdef]
    constructor
    · intro h
      by_cases he : (strStartsWith io_pp "sono " || strStartsWith io_pp "ero "
          || strStartsWith io_pp "sarò ") = true
      · rw [if_pos he] at h; simp at h
      · rw [if_neg he] at h
        by_cases ha : (strStartsWith io_pp "ho " || strStartsWith io_pp "avevo "
            || strStartsWith io_pp "avrò ") = true
        · exact ha
        · rw [if_neg ha] at h; simp at h
    · intro ha
      have he : ¬ (strStartsWith io_pp "sono " || strStartsWith io_pp "ero "
          || strStartsWith io_pp "sarò ") = true := by
        intro he
        exact essereAvereExclusive io_pp he ha
      rw [if_neg he, if_pos ha]
  · rw [hdef]
    split
    · right; left; rfl
    · split
      · right; right; rfl
      · left; rfl
  · intro hnone
    rw [hdef]
    have : io_pp = "" := by
      rw [hio, hnone]
      rfl
    rw [this]
    rfl

/-- C3 witness: `"sono andato"` classifies as `"essere"`, `"ho mangiato"`
as `"avere"`, and the everywhere-missing path as `none`. -/
theorem detect_auxiliary_spec_witness :
    _detect_auxiliary exConjEssere = some "essere"
    ∧ _detect_auxiliary exConjAvere = some "avere"
    ∧ _detect_auxiliary [] = none :=
  ⟨(detect_auxiliary_spec exConjEssere).1.mpr (by decide),
   (detect_auxiliary_spec exConjAvere).2.1.mpr (by decide),
   (detect_auxiliary_spec []).2.2.2 rfl⟩

/-! ## C4: the text normalizer -/

theorem nbspToSpace_ne_nbsp (c : Char) : nbspToSpace c ≠ '\u00a0' := by
  rw [nbspToSpace]
  split
  · decide
  · assumption

/-- Every character emitted by the collapsing pass is an ordinary space or
one of the input characters. -/
theorem collapseAux_mem (l : List Char) :
    ∀ (b : Bool) (c : Char), c ∈ collapseAux b l → c = ' ' ∨ c ∈ l := by
  induction l with
  | nil => intro b c hc; simp [collapseAux] at hc
  | cons x rest ih =>
    intro b c hc
    rw [collapseAux] at hc
    by_cases hx : pySpace x = true
    · rw [if_pos hx] at hc
      cases b with
      | true =>
        rw [if_pos rfl] at hc
        rcases ih true c hc with h | h
        · exact Or.inl h
        · exact Or.inr (List.mem_cons_of_mem _ h)
      | false =>
        rw [if_neg (by simp)] at hc
        rcases List.mem_cons.mp hc with h | h
        · exact Or.inl h
        · rcases ih true c h with h' | h'
          · exact Or.inl h'
          · exact Or.inr (List.mem_cons_of_mem _ h')
    · rw [if_neg hx] at hc
      rcases List.mem_cons.mp hc with h | h
      · exact Or.inr (h ▸ List.mem_cons_self _ _)
      · rcases ih false c h with h' | h'
        · exact Or.inl h'
        · exact Or.inr (List.mem_cons_of_mem _ h')

/-- The collapsing pass: adjacent output characters are never both
whitespace, and with `b = true` the output starts with non-whitespace. -/
theorem collapseAux_chain (l : List Char) :
    (∀ b, List.Chain' (fun a c => ¬(pySpace a = true ∧ pySpace c = true))
        (collapseAux b l))
    ∧ (∀ c, (collapseAux true l).head? = some c → pySpace c = false) := by
  induction l with
  | nil =>
    constructor
    · intro b; simp [collapseAux]
    · intro c hc; simp [collapseAux] at hc
  | cons x rest ih =>
    by_cases hx : pySpace x = true
    · constructor
      · intro b
        rw [collapseAux, if_pos hx]
        cases b with
        | true =>
          rw [if_pos rfl]
          exact ih.1 true
        | false =>
          rw [if_neg (by simp)]
          rw [List.chain'_cons']
          refine ⟨?_, ih.1 true⟩
          intro y hy hcontra
          have := ih.2 y hy
          rw [this] at hcontra
          exact Bool.false_ne_true hcontra.2
      · intro c hc
        rw [collapseAux, if_pos hx, if_pos rfl] at hc
        exact ih.2 c hc
    · constructor
      · intro b
        rw [collapseAux, if_neg hx]
        rw [List.chain'_cons']
        refine ⟨?_, ih.1 false⟩
        intro y hy hcontra
        exact hx hcontra.1
      · intro c hc
        rw [collapseAux, if_neg hx] at hc
        simp only [List.head?_cons, Option.some.injEq] at hc
        rw [← hc]
        exact Bool.eq_false_iff.mpr hx

theorem collapseAux_length (l : List Char) :
    ∀ b, (collapseAux b l).length ≤ l.length := by
  induction l with
  | nil => intro b; simp [collapseAux]
  | cons x rest ih =>
    intro b
    rw [collapseAux]
    by_cases hx : pySpace x = true
    · rw [if_pos hx]
      cases b with
      | true =>
        rw [if_pos rfl]
        exact Nat.le_succ_of_le (ih true)
      | false =>
        rw [if_neg (by simp)]
        simpa using Nat.succ_le_succ (ih true)
    · rw [if_neg hx]
      simpa using Nat.succ_le_succ (ih false)

theorem head?_dropWhileP {α : Type} (p : α → Bool) (l : List α) :
    ∀ c, (l.dropWhile p).head? = some c → p c = false := by
  induction l with
  | nil => intro c hc; simp [List.dropWhile] at hc
  | cons x rest ih =>
    intro c hc
    rw [List.dropWhile] at hc
    by_cases hx : p x = true
    · rw [hx] at hc
      exact ih c hc
    · rw [Bool.eq_false_iff.mpr hx] at hc
      simp only [List.head?_cons, Option.some.injEq] at hc
      rw [← hc]
      exact Bool.eq_false_iff.mpr hx

theorem pyStrip_head (l : List Char) :
    ∀ c, (pyStrip l).head? = some c → pySpace c = false := by
  intro c hc
  rw [pyStrip, List.head?_reverse] at hc
  obtain ⟨t, ht⟩ :=
    List.dropWhile_suffix (l := (l.dropWhile pySpace).reverse) pySpace
  have hne : (l.dropWhile pySpace).reverse.dropWhile pySpace ≠ [] := by
    intro h0; rw [h0] at hc; simp at hc
  have hlast : ((l.dropWhile pySpace).reverse.dropWhile pySpace).getLast?
      = (l.dropWhile pySpace).reverse.getLast? := by
    conv_rhs => rw [← ht]
    rw [List.getLast?_append_of_ne_nil _ hne]
  rw [hlast, List.getLast?_reverse] at hc
  exact head?_dropWhileP pySpace l c hc

theorem pyStrip_last (l : List Char) :
    ∀ c, (pyStrip l).getLast? = some c → pySpace c = false := by
  intro c hc
  rw [pyStrip, List.getLast?_reverse] at hc
  exact head?_dropWhileP pySpace _ c hc

theorem pyStrip_sublist (l : List Char) : List.Sublist (pyStrip l) l := by
  have h1 : List.Sublist ((l.dropWhile pySpace).reverse.dropWhile pySpace)
      (l.dropWhile pySpace).reverse := List.dropWhile_sublist _
  have h2 : List.Sublist (pyStrip l) (l.dropWhile pySpace).reverse.reverse :=
    h1.reverse
  rw [List.reverse_reverse] at h2
  exact h2.trans (List.dropWhile_sublist _)

theorem pyStrip_chain (l : List Char)
    (h : List.Chain' (fun a c => ¬(pySpace a = true ∧ pySpace c = true)) l) :
    List.Chain' (fun a c => ¬(pySpace a = true ∧ pySpace c = true))
      (pyStrip l) := by
  have hsymm : ∀ (a c : Char),
      (fun a c => ¬(pySpace a = true ∧ pySpace c = true)) a c →
      flip (fun a c => ¬(pySpace a = true ∧ pySpace c = true)) a c := by
    intro a c hac hcontra
    exact hac ⟨hcontra.2, hcontra.1⟩
  have h1 : List.Chain' _ (l.dropWhile pySpace) :=
    h.suffix (List.dropWhile_suffix _)
  have h2 : List.Chain' _ (l.dropWhile pySpace).reverse :=
    List.chain'_reverse.mpr (h1.imp hsymm)
  have h3 : List.Chain' _ ((l.dropWhile pySpace).reverse.dropWhile pySpace) :=
    h2.suffix (List.dropWhile_suffix _)
  exact List.chain'_reverse.mpr (h3.imp hsymm)

/-- C4: `_norm_spaces` is total by construction; for every input its output
has no non-breaking space, never two consecutive whitespace characters, no
leading and no trailing whitespace; the output is never longer than the
input; and the empty string maps to the empty string. -/
theorem norm_spaces_spec (s : String) :
    ((_norm_spaces s).data.all (fun c => !(c == '\u00a0'))) = true
    ∧ List.Chain' (fun a c => ¬(pySpace a = true ∧ pySpace c = true))
        (_norm_spaces s).data
    ∧ ((_norm_spaces s).data.head?.all (fun c => !(pySpace c))) = true
    ∧ ((_norm_spaces s).data.getLast?.all (fun c => !(pySpace c))) = true
    ∧ (_norm_spaces s).length ≤ s.length
    ∧ _norm_spaces "" = "" := by
  have hdata : (_norm_spaces s).data
      = pyStrip (collapseAux false (s.data.map nbspToSpace)) := rfl
  refine ⟨?_, ?_, ?_, ?_, ?_, rfl⟩
  · rw [List.all_eq_true]
    intro c hc
    rw [hdata] at hc
    have hc2 := collapseAux_mem _ false c (List.Sublist.mem hc (pyStrip_sublist _))
    have hne : c ≠ '\u00a0' := by
      rcases hc2 with h | h
      · rw [h]; decide
      · rcases List.mem_map.mp h with ⟨c', _, hc'⟩
        rw [← hc']
        exact nbspToSpace_ne_nbsp c'
    simp [hne]
  · rw [hdata]
    exact pyStrip_chain _ ((collapseAux_chain _).1 false)
  · rw [hdata]
    rcases hh : (pyStrip (collapseAux false (s.data.map nbspToSpace))).head? with
      _ | c
    · rfl
    · have hns := pyStrip_head _ c hh
      simp [Option.all, hns]
  · rw [hdata]
    rcases hh : (pyStrip (collapseAux false (s.data.map nbspToSpace))).getLast?
      with _ | c
    · rfl
    · have hns := pyStrip_last _ c hh
      simp [Option.all, hns]
  · show (_norm_spaces s).data.length ≤ s.data.length
    rw [hdata]
    calc (pyStrip (collapseAux false (s.data.map nbspToSpace))).length
        ≤ (collapseAux false (s.data.map nbspToSpace)).length :=
          (pyStrip_sublist _).length_le
      _ ≤ (s.data.map nbspToSpace).length := collapseAux_length _ false
      _ = s.data.length := List.length_map _ _

/-! ## C5: empty verb fails before any fetch -/

/-- C5: for every verb that is empty after trimming, the orchestrator fails
with the `InvalidInput` error (`ValueError("Empty verb provided.")`) and
performs zero fetch attempts — whatever the network oracle, the parser, or
the strictness flag would have done. -/
theorem scrape_empty_verb_spec (verb : String) (h : pyStripStr verb = "")
    (outcome : Nat → Except String String) (parseDoc : String → Soup)
    (strict : Bool) :
    scrape_conjugations verb outcome parseDoc strict
      = (.error (.invalidInput "Empty verb provided."), 0) := by
  have hb : build_url verb = .error (.invalidInput "Empty verb provided.") := by
    rw [build_url]
    simp only [h]
    rfl
  rw [scrape_conjugations, hb]

/-- C5 witness: both `""` and `"   "` fail with `InvalidInput` and zero
fetch attempts, even with an oracle that would succeed at once. -/
theorem scrape_empty_verb_spec_witness :
    scrape_conjugations "" (fun _ => .ok "page") (fun _ => ⟨none, none, []⟩)
        false
      = (.error (.invalidInput "Empty verb provided."), 0)
    ∧ scrape_conjugations "   " (fun _ => .ok "page")
        (fun _ => ⟨none, none, []⟩) true
      = (.error (.invalidInput "Empty verb provided."), 0) :=
  ⟨scrape_empty_verb_spec "" (by decide) _ _ false,
   scrape_empty_verb_spec "   " (by decide) _ _ true⟩

/-! ## C8: structural validation is advisory unless strict -/

/-- C8: with the fetch successful, the non-strict scrape (the default:
`STRICT_CHECKS = false`) always completes and returns exactly the
extracted data — the validator's accumulated messages appear nowhere in
the returned structure; the strict scrape fails with a `SchemaViolation`
exactly when messages accumulated, and otherwise returns the same result
as the non-strict scrape. -/
theorem check_expected_strictness_spec (verb : String)
    (outcome : Nat → Except String String) (parseDoc : String → Soup)
    (url html : String)
    (hurl : build_url verb = .ok url)
    (hfetch : (fetch_html outcome 2).1 = .ok html) :
    STRICT_CHECKS = false
    ∧ (scrape_conjugations verb outcome parseDoc false
        = (.ok { queried := verb, url := url,
                 model := (parse_principal_forms (parseDoc html)).1,
                 principal_forms := (parse_principal_forms (parseDoc html)).2,
                 auxiliary := _detect_auxiliary
                   (parse_conjugations (parseDoc html).sections),
                 conjugations := parse_conjugations (parseDoc html).sections },
           (fetch_html outcome 2).2.1))
    ∧ (checkMissing (parse_conjugations (parseDoc html).sections) ≠ [] →
        scrape_conjugations verb outcome parseDoc true
          = (.error (.schemaViolation (interStr " | "
              (checkMissing (parse_conjugations (parseDoc html).sections)))),
             (fetch_html outcome 2).2.1))
    ∧ (checkMissing (parse_conjugations (parseDoc html).sections) = [] →
        scrape_conjugations verb outcome parseDoc true
          = scrape_conjugations verb outcome parseDoc false) := by
  rcases hsplit : fetch_html outcome 2 with ⟨r1, n, sl⟩
  rw [hsplit] at hfetch
  simp only at hfetch
  subst hfetch
  have hrun : ∀ st : Bool, scrape_conjugations verb outcome parseDoc st
      = (match _check_expected (parse_conjugations (parseDoc html).sections) st with
         | .error m => (.error (.schemaViolation m), n)
         | .ok _ =>
           (.ok { queried := verb, url := url,
                  model := (parse_principal_forms (parseDoc html)).1,
                  principal_forms := (parse_principal_forms (parseDoc html)).2,
                  auxiliary := _detect_auxiliary
                    (parse_conjugations (parseDoc html).sections),
                  conjugations := parse_conjugations (parseDoc html).sections },
            n)) := by
    intro st
    rw [scrape_conjugations, hurl, hsplit]
  by_cases hm : checkMissing (parse_conjugations (parseDoc html).sections) = []
  · have hchkf : _check_expected (parse_conjugations (parseDoc html).sections)
        false = .ok [] := by
      rw [_check_expected]
      simp [hm]
    have hchkt : _check_expected (parse_conjugations (parseDoc html).sections)
        true = .ok [] := by
      rw [_check_expected]
      simp [hm]
    refine ⟨rfl, ?_, ?_, ?_⟩
    · rw [hrun false, hchkf]
    · intro hne; exact absurd hm hne
    · intro _
      rw [hrun true, hrun false, hchkt, hchkf]
  · have hemp : (checkMissing
        (parse_conjugations (parseDoc html).sections)).isEmpty = false := by
      rcases hl : checkMissing (parse_conjugations (parseDoc html).sections) with
        _ | ⟨a, as⟩
      · exact absurd hl hm
      · rfl
    have hchkf : _check_expected (parse_conjugations (parseDoc html).sections)
        false = .ok [interStr " | "
          (checkMissing (parse_conjugations (parseDoc html).sections))] := by
      rw [_check_expected]
      simp [hemp]
    have hchkt : _check_expected (parse_conjugations (parseDoc html).sections)
        true = .error (interStr " | "
          (checkMissing (parse_conjugations (parseDoc html).sections))) := by
      rw [_check_expected]
      simp [hemp]
    refine ⟨rfl, ?_, ?_, ?_⟩
    · rw [hrun false, hchkf]
    · intro _
      rw [hrun true, hchkt]
    · intro h0; exact absurd h0 hm

/-- C8 witness: a page with only `indicativo → presente → io` is missing
expected moods, so the strict scrape fails while the default non-strict
scrape returns the extracted table with no diagnostics attached. -/
theorem check_expected_strictness_spec_witness :
    scrape_conjugations "parlare" (fun _ => .ok "page") (fun _ => soupC8)
        false
      = (.ok { queried := "parlare", url := BASE ++ "?" ++ "v=" ++ "parlare",
               model := none, principal_forms := [], auxiliary := none,
               conjugations := [("indicativo", [("presente", [("io", "parlo")])])] },
         1)
    ∧ (∃ m, scrape_conjugations "parlare" (fun _ => .ok "page")
        (fun _ => soupC8) true = (.error (.schemaViolation m), 1)) := by
  have h := check_expected_strictness_spec "parlare" (fun _ => .ok "page")
    (fun _ => soupC8) (BASE ++ "?" ++ "v=" ++ "parlare") "page" (by decide)
    (by decide)
  constructor
  · rw [h.2.1]
    decide
  · refine ⟨interStr " | " (checkMissing
      (parse_conjugations ((fun (_ : String) => soupC8) "page").sections)), ?_⟩
    rw [h.2.2.1 (by decide)]
    decide

/-! ## C2: canonical person reordering -/

theorem containsStr_iff (l : List String) (a : String) :
    l.contains a = true ↔ a ∈ l := by
  rw [List.contains_iff_exists_mem_beq]
  constructor
  · rintro ⟨b, hb, hbeq⟩
    rw [beq_iff_eq] at hbeq
    exact hbeq ▸ hb
  · intro hmem
    exact ⟨a, hmem, by simp⟩

theorem personOrder_nodup (mood : String) : (personOrder mood).Nodup := by
  rw [personOrder]
  split
  · decide
  · decide

/-- The first loop of `_ordered_tense_map`: folding the canonical labels
produces exactly the canonical entries present in the data, in canonical
order, appended after the accumulator. -/
theorem orderedFold_eq_filterMap (tm : PersonMap) :
    ∀ (ds : List String) (acc : PersonMap), ds.Nodup →
      (∀ k ∈ ds, containsKey acc k = false) →
      ds.foldl (fun acc k =>
        match lookupKey tm k with
        | some v => dictInsert acc k v
        | none => acc) acc
      = acc ++ ds.filterMap (fun k => (lookupKey tm k).map (fun v => (k, v))) := by
  intro ds
  induction ds with
  | nil => intro acc _ _; simp
  | cons k ds' ih =>
    intro acc hnd hacc
    rw [List.nodup_cons] at hnd
    rw [List.foldl_cons, List.filterMap_cons]
    cases hlk : lookupKey tm k with
    | none =>
      simp only [Option.map_none']
      exact ih acc hnd.2 (fun k' hk' => hacc k' (List.mem_cons_of_mem _ hk'))
    | some v =>
      simp only [Option.map_some']
      have hck : containsKey acc k = false := hacc k (List.mem_cons_self _ _)
      rw [dictInsert_of_not_contains v hck]
      rw [ih (acc ++ [(k, v)]) hnd.2 ?_]
      · rw [List.append_assoc]
        rfl
      · intro k' hk'
        rw [containsKey_append, Bool.or_eq_false_iff]
        refine ⟨hacc k' (List.mem_cons_of_mem _ hk'), ?_⟩
        rw [containsKey_cons]
        have : k ≠ k' := fun h => hnd.1 (h ▸ hk')
        simp [containsKey, this]

/-- The second loop of `_ordered_tense_map`: appending the entries whose
key is not already present, in their original order. -/
theorem remainingFold_eq_filter :
    ∀ (tm : PersonMap) (acc : PersonMap), (tm.map Prod.fst).Nodup →
      tm.foldl (fun acc kv =>
        if containsKey acc kv.1 then acc else dictInsert acc kv.1 kv.2) acc
      = acc ++ tm.filter (fun p => !containsKey acc p.1) := by
  intro tm
  induction tm with
  | nil => intro acc _; simp
  | cons p tm' ih =>
    intro acc hnd
    rw [List.map_cons, List.nodup_cons] at hnd
    rw [List.foldl_cons, List.filter_cons]
    by_cases hp : containsKey acc p.1 = true
    · have hnot : (!containsKey acc p.1) = false := by rw [hp]; rfl
      rw [if_pos hp, hnot, if_neg Bool.false_ne_true, ih acc hnd.2]
    · have hp' : containsKey acc p.1 = false := Bool.eq_false_iff.mpr hp
      have hnot : (!containsKey acc p.1) = true := by rw [hp']; rfl
      rw [if_neg hp, hnot, if_pos rfl,
        dictInsert_of_not_contains p.2 hp',
        ih (acc ++ [(p.1, p.2)]) hnd.2]
      have hfe : tm'.filter (fun q => !containsKey (acc ++ [(p.1, p.2)]) q.1)
          = tm'.filter (fun q => !containsKey acc q.1) := by
        apply List.filter_congr
        intro q hq
        have hqp : p.1 ≠ q.1 := by
          intro h
          exact hnd.1 (h ▸ List.mem_map.mpr ⟨q, hq, rfl⟩)
        rw [containsKey_append, containsKey_cons]
        simp [containsKey, hqp]
      rw [hfe, List.append_assoc]
      have : p = (p.1, p.2) := by rw [Prod.mk.eta]
      rw [← this]
      rfl

/-- Keys of the canonical part are the canonical labels present in the
data. -/
theorem keys_canonical (tm : PersonMap) (ds : List String) :
    (ds.filterMap (fun k => (lookupKey tm k).map (fun v => (k, v)))).map
      Prod.fst
    = ds.filter (fun k => (lookupKey tm k).isSome) := by
  induction ds with
  | nil => rfl
  | cons k ds' ih =>
    rw [List.filterMap_cons, List.filter_cons]
    cases hlk : lookupKey tm k with
    | none => simpa [hlk] using ih
    | some v =>
      simp only [hlk, Option.map_some', List.map_cons, Option.isSome_some,
        if_pos trivial]
      rw [ih]

/-- C2: on a person dict with distinct keys (a Python dict invariant),
`_ordered_tense_map` permutes the extracted entries without dropping or
altering any pair, and emits exactly the canonical labels present — in the
canonical list's order — followed by the remaining extracted labels in
extraction order.  The canonical list is `PERSON_ORDER_IMPERATIVE` for the
mood `"imperativo"` and `PERSON_ORDER_DEFAULT` otherwise. -/
theorem ordered_tense_map_spec (tense_map : PersonMap) (mood : String)
    (h : (tense_map.map Prod.fst).Nodup) :
    (_ordered_tense_map tense_map mood).Perm tense_map
    ∧ _ordered_tense_map tense_map mood
      = (personOrder mood).filterMap
          (fun k => (lookupKey tense_map k).map (fun v => (k, v)))
        ++ tense_map.filter
          (fun p => !(personOrder mood).contains p.1) := by
  have hshape : _ordered_tense_map tense_map mood
      = (personOrder mood).filterMap
          (fun k => (lookupKey tense_map k).map (fun v => (k, v)))
        ++ tense_map.filter
          (fun p => !(personOrder mood).contains p.1) := by
    rw [_ordered_tense_map]
    rw [orderedFold_eq_filterMap tense_map (personOrder mood) []
      (personOrder_nodup mood) (fun k _ => rfl)]
    rw [List.nil_append]
    rw [remainingFold_eq_filter tense_map _ h]
    congr 1
    apply List.filter_congr
    intro p hp
    congr 1
    rw [Bool.eq_iff_iff, containsKey_iff_mem, keys_canonical,
      List.mem_filter, containsStr_iff]
    constructor
    · intro hmem
      exact hmem.1
    · intro hmem
      exact ⟨hmem, lookupKey_isSome_of_mem hp⟩
  refine ⟨?_, hshape⟩
  rw [hshape]
  have hkeys : ((personOrder mood).filterMap
      (fun k => (lookupKey tense_map k).map (fun v => (k, v)))
      ++ tense_map.filter
        (fun p => !(personOrder mood).contains p.1)).map Prod.fst
      = (personOrder mood).filter (fun k => (lookupKey tense_map k).isSome)
        ++ (tense_map.filter
          (fun p => !(personOrder mood).contains p.1)).map Prod.fst := by
    rw [List.map_append, keys_canonical]
  have hnodupKeys : (((personOrder mood).filterMap
      (fun k => (lookupKey tense_map k).map (fun v => (k, v)))
      ++ tense_map.filter
        (fun p => !(personOrder mood).contains p.1)).map Prod.fst).Nodup := by
    rw [hkeys]
    apply List.Nodup.append
    · exact (personOrder_nodup mood).filter _
    · exact ((List.filter_sublist _).map Prod.fst).nodup h
    · intro a ha hb
      rw [List.mem_filter] at ha
      rcases List.mem_map.mp hb with ⟨q, hq, hqa⟩
      rw [List.mem_filter] at hq
      have hqc : (personOrder mood).contains q.1 = false := by
        rcases hcq : (personOrder mood).contains q.1 with _ | _
        · rfl
        · rw [hcq] at hq
          exact absurd hq.2 (by decide)
      have hnmem : q.1 ∉ personOrder mood := by
        intro hmem
        rw [← containsStr_iff, hqc] at hmem
        exact Bool.false_ne_true hmem
      rw [hqa] at hnmem
      exact hnmem ha.1
  have hnodup : ((personOrder mood).filterMap
      (fun k => (lookupKey tense_map k).map (fun v => (k, v)))
      ++ tense_map.filter
        (fun p => !(personOrder mood).contains p.1)).Nodup :=
    List.Nodup.of_map _ hnodupKeys
  have htmnodup : tense_map.Nodup := List.Nodup.of_map _ h
  rw [List.perm_ext_iff_of_nodup hnodup htmnodup]
  intro a
  rw [List.mem_append, List.mem_filterMap, List.mem_filter]
  constructor
  · rintro (⟨k, _, hk⟩ | ⟨ha, _⟩)
    · cases hlk : lookupKey tense_map k with
      | none => rw [hlk] at hk; simp at hk
      | some v =>
        rw [hlk] at hk
        simp only [Option.map_some', Option.some.injEq] at hk
        rw [← hk]
        exact lookupKey_mem hlk
    · exact ha
  · intro ha
    by_cases hd : (personOrder mood).contains a.1 = true
    · left
      refine ⟨a.1, ?_, ?_⟩
      · rw [containsStr_iff] at hd
        exact hd
      · have hlk : lookupKey tense_map a.1 = some a.2 := by
          have hh := lookupKey_eq_of_mem_nodup h (k := a.1) (v := a.2)
          rw [Prod.mk.eta] at hh
          exact hh ha
        rw [hlk, Option.map_some', Prod.mk.eta]
    · right
      have hd' : (personOrder mood).contains a.1 = false :=
        Bool.eq_false_iff.mpr hd
      exact ⟨ha, by rw [hd']; rfl⟩

/-- C2 witness: for mood `"indicativo"` and extraction order
voi, io, tu, the emitted order is io, tu, voi with no pair lost. -/
theorem ordered_tense_map_spec_witness :
    (_ordered_tense_map exTenseMapC2 "indicativo").Perm exTenseMapC2
    ∧ _ordered_tense_map exTenseMapC2 "indicativo"
      = [("io", "parlo"), ("tu", "parli"), ("voi", "parlate")] :=
  ⟨(ordered_tense_map_spec exTenseMapC2 "indicativo" (by decide)).1,
   by decide⟩

/-! ## C10: later tables replace earlier ones per (mood, tense) -/

theorem lookupKey_none_iff {α : Type} (d : List (String × α)) (k : String) :
    lookupKey d k = none ↔ containsKey d k = false := by
  induction d with
  | nil => simp [lookupKey, containsKey]
  | cons q rest ih =>
    rw [lookupKey_cons, containsKey_cons, Bool.or_eq_false_iff]
    by_cases hk : q.1 = k
    · simp [hk]
    · rw [if_neg hk, ih]
      simp [hk]

theorem lookup_mapUpdate {α : Type} (d : List (String × α)) (k : String)
    (v : α) (k' : String) :
    lookupKey (d.map (fun p => if p.1 = k then (k, v) else p)) k'
      = if k' = k then (if containsKey d k then some v else none)
        else lookupKey d k' := by
  induction d with
  | nil => by_cases hk : k' = k <;> simp [lookupKey, containsKey, hk]
  | cons q rest ih =>
    rw [List.map_cons, containsKey_cons]
    by_cases hq : q.1 = k
    · rw [if_pos hq, lookupKey_cons]
      simp only
      by_cases hk : k' = k
      · rw [if_pos (hk ▸ rfl : k = k'), if_pos hk]
        have : (q.1 == k) = true := by simp [hq]
        rw [this, Bool.true_or, if_pos rfl]
      · have hkk : ¬(k = k') := fun hc => hk hc.symm
        rw [if_neg hkk, if_neg hk, ih, lookupKey_cons]
        rw [if_neg hk, if_neg (hq ▸ hkk ∘ Eq.symm ∘ Eq.symm : ¬(q.1 = k'))]
    · rw [if_neg hq, lookupKey_cons, lookupKey_cons]
      by_cases hqk : q.1 = k'
      · rw [if_pos hqk, if_pos hqk]
        have hk : ¬(k' = k) := fun hc => hq (hqk ▸ hc)
        rw [if_neg hk]
      · rw [if_neg hqk, if_neg hqk, ih]
        have : (q.1 == k) = false := by simp [hq]
        rw [this, Bool.false_or]

theorem lookup_dictInsert {α : Type} (d : List (String × α)) (k : String)
    (v : α) (k' : String) :
    lookupKey (dictInsert d k v) k'
      = if k' = k then some v else lookupKey d k' := by
  rw [dictInsert]
  by_cases hc : containsKey d k = true
  · rw [if_pos hc, lookup_mapUpdate, hc]
    by_cases hk : k' = k
    · rw [if_pos hk, if_pos hk, if_pos rfl]
    · rw [if_neg hk, if_neg hk]
  · have hc' : containsKey d k = false := Bool.eq_false_iff.mpr hc
    rw [if_neg (by rw [hc']; exact Bool.false_ne_true)]
    by_cases hk : k' = k
    · rw [if_pos hk, hk,
        lookupKey_append_right _ hc', lookupKey_cons, if_pos rfl]
    · rw [if_neg hk]
      cases hlk : lookupKey d k' with
      | some w =>
        rw [lookupKey_append_left _ (by rw [hlk]; rfl), hlk]
      | none =>
        rw [lookupKey_append_right _ ((lookupKey_none_iff d k').mp hlk),
          lookupKey_cons]
        rw [if_neg (fun hc2 : k = k' => hk hc2.symm)]
        rfl

theorem lookup_dictUpdate {α : Type} (d : List (String × α)) (m : String)
    (f : α → α) (k : String) :
    lookupKey (dictUpdate d m f) k
      = if k = m then (lookupKey d m).map f else lookupKey d k := by
  induction d with
  | nil => by_cases hk : k = m <;> simp [dictUpdate, lookupKey, hk]
  | cons q rest ih =>
    rw [dictUpdate, List.map_cons]
    have ihm : lookupKey (List.map
        (fun p => if p.1 = m then (p.1, f p.2) else p) rest) k
        = lookupKey (dictUpdate rest m f) k := rfl
    by_cases hq : q.1 = m
    · rw [if_pos hq, lookupKey_cons]
      simp only
      by_cases hk : k = m
      · have hqk : q.1 = k := hq.trans hk.symm
        rw [if_pos hqk, if_pos hk, lookupKey_cons, if_pos hq,
          Option.map_some']
      · have hqk : ¬ q.1 = k := fun hc => hk (hc.symm.trans hq)
        rw [if_neg hqk, ihm, ih, if_neg hk, if_neg hk, lookupKey_cons,
          if_neg hqk]
    · rw [if_neg hq, lookupKey_cons]
      by_cases hqk : q.1 = k
      · have hk : ¬ k = m := fun hc => hq (hqk.trans hc)
        rw [if_pos hqk, if_neg hk, lookupKey_cons, if_pos hqk]
      · rw [if_neg hqk, ihm, ih]
        by_cases hk : k = m
        · rw [if_pos hk, if_pos hk, lookupKey_cons, if_neg hq]
        · rw [if_neg hk, if_neg hk, lookupKey_cons, if_neg hqk]

/-- Folding repeated dict assignments: the final value under a key is the
value of the last assignment to it, if any, else the initial one. -/
theorem lookup_foldl_insert {α : Type} (ps : List (String × α)) :
    ∀ (d : List (String × α)) (k : String),
      lookupKey (ps.foldl (fun d p => dictInsert d p.1 p.2) d) k
      = ((ps.reverse.find? (fun p => p.1 == k)).map Prod.snd).or
          (lookupKey d k) := by
  induction ps with
  | nil => intro d k; simp
  | cons p ps' ih =>
    intro d k
    rw [List.foldl_cons, ih, List.reverse_cons, List.find?_append]
    cases hf : ps'.reverse.find? (fun p => p.1 == k) with
    | some r => rfl
    | none =>
      show lookupKey (dictInsert d p.1 p.2) k
        = (Option.map Prod.snd (List.find? (fun p => p.1 == k) [p])).or
            (lookupKey d k)
      rw [lookup_dictInsert]
      by_cases hk : k = p.1
      · rw [if_pos hk,
          List.find?_cons_of_pos _ (by simp [hk])]
        rfl
      · rw [if_neg hk,
          List.find?_cons_of_neg _ (by
            intro hbeq
            rw [beq_iff_eq] at hbeq
            exact hk hbeq.symm),
          List.find?_nil]
        rfl

/-- Processing one mood section's tables changes only that mood's entry,
by inserting each table's (tense, ordered map) pair in order. -/
theorem lookup_tablesFold (mood : String) (tables : List NeoTable) :
    ∀ (res : Conj) (k : String),
      lookupKey (tables.foldl (stepTable mood) res) k
      = if k = mood then
          (lookupKey res mood).map (fun tm =>
            (tables.map (tensePair mood)).foldl
              (fun tm p => dictInsert tm p.1 p.2) tm)
        else lookupKey res k := by
  induction tables with
  | nil =>
    intro res k
    show lookupKey res k = _
    by_cases hk : k = mood
    · rw [if_pos hk, hk]
      cases lookupKey res mood <;> rfl
    · rw [if_neg hk]
  | cons t ts ih =>
    intro res k
    rw [List.foldl_cons, ih]
    by_cases hk : k = mood
    · rw [if_pos hk, if_pos hk, stepTable, lookup_dictUpdate, if_pos rfl]
      cases lookupKey res mood <;> rfl
    · rw [if_neg hk, if_neg hk, stepTable, lookup_dictUpdate, if_neg hk]

theorem emittedTenses_cons (sec : MoodSection) (secs : List MoodSection)
    (mood : String) :
    emittedTenses (sec :: secs) mood
      = (if sec.mood_h4.map pyLower == some mood
         then sec.tables.map (tensePair mood) else [])
        ++ emittedTenses secs mood := by
  rw [emittedTenses, emittedTenses, List.filter_cons]
  by_cases hs : (sec.mood_h4.map pyLower == some mood) = true
  · rw [if_pos hs, if_pos hs, List.map_cons, List.flatten_cons]
  · rw [if_neg hs, if_neg hs, List.nil_append]

theorem moodDeclared_cons (sec : MoodSection) (secs : List MoodSection)
    (mood : String) :
    moodDeclared (sec :: secs) mood
      = ((sec.mood_h4.map pyLower == some mood) || moodDeclared secs mood) := by
  rw [moodDeclared, moodDeclared, List.any_cons]

/-- The section fold invariant: under any accumulator, the entry for a
mood is the accumulated dict extended by all pairs the remaining sections
emit for that mood. -/
theorem lookup_sectionsFold (mood : String) :
    ∀ (secs : List MoodSection) (res : Conj),
      lookupKey (secs.foldl stepSection res) mood
      = (if ((lookupKey res mood).isSome || moodDeclared secs mood) = true
         then some ((emittedTenses secs mood).foldl
           (fun tm p => dictInsert tm p.1 p.2) ((lookupKey res mood).getD []))
         else none) := by
  intro secs
  induction secs with
  | nil =>
    intro res
    rw [show emittedTenses [] mood = [] from rfl,
      show moodDeclared [] mood = false from rfl]
    show lookupKey res mood = _
    cases lookupKey res mood <;> rfl
  | cons sec secs' ih =>
    intro res
    rw [List.foldl_cons, emittedTenses_cons, moodDeclared_cons]
    cases hh : sec.mood_h4 with
    | none =>
      have hstep : stepSection res sec = res := by
        rw [stepSection, hh]
      have hmatch : (Option.map pyLower (none : Option String) == some mood)
          = false := rfl
      rw [hstep, ih res, hmatch, Bool.false_or,
        if_neg Bool.false_ne_true, List.nil_append]
    | some hdr =>
      have hstep : stepSection res sec
          = sec.tables.foldl (stepTable (pyLower hdr))
              (if containsKey res (pyLower hdr) then res
               else res ++ [(pyLower hdr, [])]) := by
        rw [stepSection, hh]
      rw [hstep, ih _, lookup_tablesFold]
      by_cases hm : mood = pyLower hdr
      · have hmatch : (Option.map pyLower (some hdr) == some mood) = true := by
          simp [hm]
        have hens : lookupKey (if containsKey res (pyLower hdr) then res
            else res ++ [(pyLower hdr, [])]) (pyLower hdr)
            = some ((lookupKey res (pyLower hdr)).getD []) := by
          by_cases hc : containsKey res (pyLower hdr) = true
          · rw [if_pos hc]
            cases hlk : lookupKey res (pyLower hdr) with
            | some tm => rfl
            | none =>
              rw [(lookupKey_none_iff _ _).mp hlk] at hc
              exact absurd hc Bool.false_ne_true
          · rw [if_neg hc,
              lookupKey_append_right _ (Bool.eq_false_iff.mpr hc),
              lookupKey_cons, if_pos rfl,
              (lookupKey_none_iff _ _).mpr (Bool.eq_false_iff.mpr hc)]
            rfl
        rw [if_pos hm, hens, hmatch, Option.map_some', Option.isSome_some,
          Bool.true_or, Bool.or_true, if_pos rfl, if_pos rfl,
          Option.getD_some, hm, List.foldl_append, if_pos rfl]
      · have hmatch : (Option.map pyLower (some hdr) == some mood) = false := by
          simp only [Option.map_some', beq_iff_eq, Option.some.injEq]
          exact decide_eq_false (fun hc => hm hc.symm)
        have hout : lookupKey (if containsKey res (pyLower hdr) then res
            else res ++ [(pyLower hdr, [])]) mood = lookupKey res mood := by
          by_cases hc : containsKey res (pyLower hdr) = true
          · rw [if_pos hc]
          · rw [if_neg hc]
            cases hlk : lookupKey res mood with
            | some tm =>
              rw [lookupKey_append_left _ (by rw [hlk]; rfl), hlk]
            | none =>
              rw [lookupKey_append_right _ ((lookupKey_none_iff _ _).mp hlk),
                lookupKey_cons,
                if_neg (fun hc2 : pyLower hdr = mood => hm hc2.symm)]
              rfl
        rw [if_neg hm, hout, hmatch, Bool.false_or,
          if_neg Bool.false_ne_true, List.nil_append]

/-- C10: whenever a mood is declared by some section, the parsed table has
an entry for it, and for every tense name the person map stored there is
the one contributed by the LAST table resolving to that (mood, tense) —
earlier same-named tables' pairs are discarded wholesale, not merged;
repeated sections for one mood feed the same per-mood dict. -/
theorem parse_conjugations_last_wins (sections : List MoodSection)
    (mood : String) (h : moodDeclared sections mood = true) :
    (lookupKey (parse_conjugations sections) mood).isSome = true
    ∧ ∀ tense,
        lookupKey ((lookupKey (parse_conjugations sections) mood).getD [])
          tense
        = lastValue (emittedTenses sections mood) tense := by
  have hlk : lookupKey (parse_conjugations sections) mood
      = some ((emittedTenses sections mood).foldl
          (fun tm p => dictInsert tm p.1 p.2) []) := by
    rw [parse_conjugations, lookup_sectionsFold, h]
    rfl
  constructor
  · rw [hlk]
    rfl
  · intro tense
    rw [hlk]
    show lookupKey ((emittedTenses sections mood).foldl
        (fun tm p => dictInsert tm p.1 p.2) []) tense = _
    rw [lookup_foldl_insert, lastValue]
    show _ = Option.map Prod.snd _
    cases (emittedTenses sections mood).reverse.find?
        (fun p => p.1 == tense) with
    | none => rfl
    | some r => rfl

/-- C10 witness: two `indicativo` sections each with a `presente` table;
the final entry holds only the second table's map — the first table's
`tu` entry is gone. -/
theorem parse_conjugations_last_wins_witness :
    (lookupKey (parse_conjugations secsC10) "indicativo").isSome = true
    ∧ lookupKey ((lookupKey (parse_conjugations secsC10) "indicativo").getD [])
        "presente"
      = lastValue (emittedTenses secsC10 "indicativo") "presente"
    ∧ lookupKey ((lookupKey (parse_conjugations secsC10) "indicativo").getD [])
        "presente" = some [("io", "canto")] :=
  ⟨(parse_conjugations_last_wins secsC10 "indicativo" (by decide)).1,
   (parse_conjugations_last_wins secsC10 "indicativo" (by decide)).2 "presente",
   by decide⟩

/-! ## C6: principal-forms pairing -/

theorem getD_eq_headD_drop (vs : List String) :
    ∀ n, vs.getD n "" = (vs.drop n).headD "" := by
  induction vs with
  | nil => intro n; cases n <;> rfl
  | cons v vs' ih =>
    intro n
    cases n with
    | zero => rfl
    | succ m => exact ih m

theorem drop_succ_tail (vs : List String) :
    ∀ n, vs.drop (n + 1) = (vs.drop n).tail := by
  induction vs with
  | nil => intro n; cases n <;> rfl
  | cons v vs' ih =>
    intro n
    cases n with
    | zero => rfl
    | succ m => exact ih m

theorem pairedFormsSpec_cons (l : String) (ls : List String)
    (vs : List String) :
    pairedFormsSpec (l :: ls) vs
      = (l, if l = "forma pronominale"
            then pyStripStr (strRemoveAll (vs.headD "") "⇒")
            else vs.headD "")
        :: pairedFormsSpec ls vs.tail := by
  cases vs with
  | nil =>
    rw [pairedFormsSpec, pairedFormsSpec]
    rw [show (l :: ls).length - ([] : List String).length
        = ls.length + 1 from rfl]
    rw [List.replicate_succ, List.nil_append, List.zip_cons_cons,
      List.map_cons]
    rfl
  | cons v vs' =>
    rw [pairedFormsSpec, pairedFormsSpec]
    rw [show (l :: ls).length - (v :: vs').length
        = ls.length - vs'.length from Nat.succ_sub_succ _ _]
    rw [List.cons_append, List.zip_cons_cons, List.map_cons]
    rfl

/-- C6 helper: the enumerate-and-assign loop over distinct labels equals
the positional zip pairing with empty-string padding. -/
theorem formsFold_eq_pairedForms (values : List String) :
    ∀ (labels : List String) (n : Nat) (acc : List (String × String)),
      labels.Nodup → (∀ l ∈ labels, containsKey acc l = false) →
      (labels.enumFrom n).foldl (fun acc ilbl =>
        dictInsert acc ilbl.2
          (if ilbl.2 = "forma pronominale"
           then pyStripStr (strRemoveAll (values.getD ilbl.1 "") "⇒")
           else values.getD ilbl.1 "")) acc
      = acc ++ pairedFormsSpec labels (values.drop n) := by
  intro labels
  induction labels with
  | nil => intro n acc _ _; simp [pairedFormsSpec]
  | cons l ls ih =>
    intro n acc hnd hacc
    rw [List.nodup_cons] at hnd
    simp only [List.enumFrom_cons, List.foldl_cons]
    rw [pairedFormsSpec_cons]
    have hstep : dictInsert acc l
        (if l = "forma pronominale"
         then pyStripStr (strRemoveAll (values.getD n "") "⇒")
         else values.getD n "")
        = acc ++ [(l, if l = "forma pronominale"
            then pyStripStr (strRemoveAll ((values.drop n).headD "") "⇒")
            else (values.drop n).headD "")] := by
      rw [getD_eq_headD_drop,
        dictInsert_of_not_contains _ (hacc l (List.mem_cons_self _ _))]
    rw [hstep, ih (n + 1) _ hnd.2 ?_]
    · rw [drop_succ_tail, List.append_assoc]
      rfl
    · intro l' hl'
      rw [containsKey_append, Bool.or_eq_false_iff]
      refine ⟨hacc l' (List.mem_cons_of_mem _ hl'), ?_⟩
      rw [containsKey_cons]
      have hne : l ≠ l' := fun hc => hnd.1 (hc ▸ hl')
      simp [containsKey, hne]

/-- C6: if the designated summary table is absent the forms mapping is
empty (and the model title survives, no error); when it is present, with
distinct (lower-cased, colon-stripped) labels, the forms dict pairs the
i-th label with the i-th value-column line, pads missing values with the
empty string, and post-processes the `"forma pronominale"` value by
removing the arrow glyph and trimming. -/
theorem parse_principal_forms_spec (h3 : Option String)
    (secs : List MoodSection) (label_td : NodeList)
    (restTds : List NodeList) (restRows : List (List NodeList))
    (hnd : ((lines_from_td_br_only label_td).map
        (fun lbl => rstripColon (pyLower lbl))).Nodup) :
    parse_principal_forms ⟨h3, none, secs⟩ = (h3, [])
    ∧ (parse_principal_forms
        ⟨h3, some ((label_td :: restTds) :: restRows), secs⟩).2
      = pairedFormsSpec
          ((lines_from_td_br_only label_td).map
            (fun lbl => rstripColon (pyLower lbl)))
          (valuesColumn restTds)
    ∧ (parse_principal_forms
        ⟨h3, some ((label_td :: restTds) :: restRows), secs⟩).1 = h3 := by
  refine ⟨rfl, ?_, ?_⟩
  · show (((lines_from_td_br_only label_td).map
        (fun lbl => rstripColon (pyLower lbl))).enum.foldl (fun acc ilbl =>
          dictInsert acc ilbl.2
            (if ilbl.2 = "forma pronominale"
             then pyStripStr
               (strRemoveAll ((valuesColumn restTds).getD ilbl.1 "") "⇒")
             else (valuesColumn restTds).getD ilbl.1 "")) [])
      = pairedFormsSpec
          ((lines_from_td_br_only label_td).map
            (fun lbl => rstripColon (pyLower lbl)))
          (valuesColumn restTds)
    have henum : ((lines_from_td_br_only label_td).map
        (fun lbl => rstripColon (pyLower lbl))).enum
        = ((lines_from_td_br_only label_td).map
          (fun lbl => rstripColon (pyLower lbl))).enumFrom 0 := rfl
    rw [henum, formsFold_eq_pairedForms _ _ 0 [] hnd (fun l _ => rfl),
      List.drop_zero, List.nil_append]
  · rfl

/-- C6 witness: three labels, two values — the third label pairs with the
empty string; labels arrive lower-cased with the trailing colon removed. -/
theorem parse_principal_forms_spec_witness :
    (parse_principal_forms soupC6).2
      = pairedFormsSpec
          ((lines_from_td_br_only cellC6Labels).map
            (fun lbl => rstripColon (pyLower lbl)))
          (valuesColumn [cellC6Values])
    ∧ (parse_principal_forms soupC6).2
      = [("infinito", "parlare"), ("gerundio", "parlando"),
         ("forma pronominale", "")] :=
  ⟨(parse_principal_forms_spec (some "parlare") [] cellC6Labels
      [cellC6Values] [] (by decide)).2.1,
   by decide⟩

/-! ## C7: narrowing (apply_filters) -/

theorem foldl_skip {α β : Type} (f : β → α → β) :
    ∀ (l : List α) (init : β), (∀ acc x, x ∈ l → f acc x = acc) →
      l.foldl f init = init := by
  intro l
  induction l with
  | nil => intro init _; rfl
  | cons x l' ih =>
    intro init hskip
    rw [List.foldl_cons, hskip init x (List.mem_cons_self _ _)]
    exact ih init (fun acc y hy => hskip acc y (List.mem_cons_of_mem _ hy))

/-- Generic dict-building loop: if each element either emits nothing or
emits a key-preserving entry, the loop (over distinct keys, disjoint from
the accumulator) appends exactly the emitted entries. -/
theorem emitFold_eq_filterMap {β γ : Type}
    (f : List (String × γ) → (String × β) → List (String × γ))
    (e : (String × β) → Option (String × γ))
    (hkey : ∀ p r, e p = some r → r.1 = p.1) :
    ∀ (l : List (String × β)) (init : List (String × γ)),
      (l.map Prod.fst).Nodup →
      (∀ p ∈ l, containsKey init p.1 = false) →
      (∀ acc p, p ∈ l → e p = none → f acc p = acc) →
      (∀ acc p r, p ∈ l → e p = some r → f acc p = dictInsert acc r.1 r.2) →
      l.foldl f init = init ++ l.filterMap e := by
  intro l
  induction l with
  | nil => intro init _ _ _ _; simp
  | cons p l' ih =>
    intro init hnd hinit hbn hbs
    rw [List.map_cons, List.nodup_cons] at hnd
    rw [List.foldl_cons, List.filterMap_cons]
    cases he : e p with
    | none =>
      rw [hbn init p (List.mem_cons_self _ _) he]
      exact ih init hnd.2
        (fun q hq => hinit q (List.mem_cons_of_mem _ hq))
        (fun acc q hq => hbn acc q (List.mem_cons_of_mem _ hq))
        (fun acc q r hq => hbs acc q r (List.mem_cons_of_mem _ hq))
    | some r =>
      have hr1 : r.1 = p.1 := hkey p r he
      have hc : containsKey init r.1 = false := by
        rw [hr1]; exact hinit p (List.mem_cons_self _ _)
      rw [hbs init p r (List.mem_cons_self _ _) he,
        dictInsert_of_not_contains _ hc,
        ih (init ++ [(r.1, r.2)]) hnd.2 ?_ ?_ ?_]
      · rw [List.append_assoc, Prod.mk.eta]
        rfl
      · intro q hq
        rw [containsKey_append, Bool.or_eq_false_iff]
        refine ⟨hinit q (List.mem_cons_of_mem _ hq), ?_⟩
        rw [containsKey_cons]
        have hne : r.1 ≠ q.1 := by
          rw [hr1]
          exact fun hc2 => hnd.1 (hc2 ▸ List.mem_map.mpr ⟨q, hq, rfl⟩)
        simp [containsKey, hne]
      · intro acc q hq
        exact hbn acc q (List.mem_cons_of_mem _ hq)
      · intro acc q r' hq
        exact hbs acc q r' (List.mem_cons_of_mem _ hq)

theorem keys_filterMap_sublist {β γ : Type}
    (e : (String × β) → Option (String × γ))
    (hkey : ∀ p r, e p = some r → r.1 = p.1) (l : List (String × β)) :
    List.Sublist ((l.filterMap e).map Prod.fst) (l.map Prod.fst) := by
  induction l with
  | nil => simp
  | cons p l' ih =>
    rw [List.filterMap_cons]
    cases he : e p with
    | none =>
      rw [List.map_cons]
      exact ih.cons _
    | some r =>
      rw [List.map_cons, List.map_cons, hkey p r he]
      exact ih.cons₂ _

/-- The person-selection loop builds exactly the filtered person map. -/
theorem personsFold_eq_filter (pset : Option (List String)) :
    ∀ (pm : PersonMap) (init : PersonMap),
      (pm.map Prod.fst).Nodup →
      (∀ p ∈ pm, containsKey init p.1 = false) →
      pm.foldl (fun fpm pf =>
        if setContains pset (pyLower pf.1)
        then dictInsert fpm pf.1 pf.2 else fpm) init
      = init ++ pm.filter (fun pf => setContains pset (pyLower pf.1)) := by
  intro pm
  induction pm with
  | nil => intro init _ _; simp
  | cons p pm' ih =>
    intro init hnd hinit
    rw [List.map_cons, List.nodup_cons] at hnd
    rw [List.foldl_cons, List.filter_cons]
    by_cases hp : setContains pset (pyLower p.1) = true
    · rw [if_pos hp, if_pos hp,
        dictInsert_of_not_contains _ (hinit p (List.mem_cons_self _ _)),
        ih (init ++ [(p.1, p.2)]) hnd.2 ?_]
      · rw [List.append_assoc, Prod.mk.eta]
        rfl
      · intro q hq
        rw [containsKey_append, Bool.or_eq_false_iff]
        refine ⟨hinit q (List.mem_cons_of_mem _ hq), ?_⟩
        rw [containsKey_cons]
        have hne : p.1 ≠ q.1 :=
          fun hc => hnd.1 (hc ▸ List.mem_map.mpr ⟨q, hq, rfl⟩)
        simp [containsKey, hne]
    · rw [if_neg hp, if_neg hp]
      exact ih init hnd.2 (fun q hq => hinit q (List.mem_cons_of_mem _ hq))

/-- The code's per-tense filtered person map equals the spec's. -/
theorem filteredPersons_eq_spec (pset : Option (List String)) (pm : PersonMap)
    (hnd : (pm.map Prod.fst).Nodup) :
    (if truthySet pset then
       pm.foldl (fun fpm pf =>
         if setContains pset (pyLower pf.1)
         then dictInsert fpm pf.1 pf.2 else fpm) []
     else pm)
    = personFilterSpec pset pm := by
  rw [personFilterSpec]
  by_cases ht : truthySet pset = true
  · rw [if_pos ht, if_pos ht,
      personsFold_eq_filter pset pm [] hnd (fun p _ => rfl),
      List.nil_append]
  · rw [if_neg ht, if_neg ht]

/-- The tense-level loop builds exactly the spec's tense narrowing. -/
theorem tenseFold_eq_spec (tset pset : Option (List String)) (tm : TenseDict)
    (hnd : (tm.map Prod.fst).Nodup)
    (hwf : ∀ tp ∈ tm, (tp.2.map Prod.fst).Nodup) :
    tm.foldl (fun ntm tp =>
      if truthySet tset && !setContains tset (pyLower tp.1) then ntm
      else
        let filtered_person_map :=
          if truthySet pset then
            tp.2.foldl (fun fpm pf =>
              if setContains pset (pyLower pf.1)
              then dictInsert fpm pf.1 pf.2 else fpm) []
          else tp.2
        if filtered_person_map.isEmpty then ntm
        else dictInsert ntm tp.1 filtered_person_map) []
    = tenseFilterSpec tset pset tm := by
  rw [tenseFilterSpec]
  rw [emitFold_eq_filterMap _
    (fun tp =>
      if truthySet tset && !setContains tset (pyLower tp.1) then none
      else
        let f := personFilterSpec pset tp.2
        if f.isEmpty then none else some (tp.1, f))
    ?_ tm [] hnd (fun p _ => rfl) ?_ ?_]
  · rw [List.nil_append]
  · intro p r he
    replace he : (if (truthySet tset && !setContains tset (pyLower p.1))
          = true then none
        else if (personFilterSpec pset p.2).isEmpty = true then none
        else some (p.1, personFilterSpec pset p.2)) = some r := he
    by_cases hc : (truthySet tset && !setContains tset (pyLower p.1)) = true
    · rw [if_pos hc] at he
      exact absurd he (by simp)
    · rw [if_neg hc] at he
      by_cases hemp : (personFilterSpec pset p.2).isEmpty = true
      · rw [if_pos hemp] at he
        exact absurd he (by simp)
      · rw [if_neg hemp] at he
        rw [← Option.some.inj he]
  · intro acc p hp he
    replace he : (if (truthySet tset && !setContains tset (pyLower p.1))
          = true then none
        else if (personFilterSpec pset p.2).isEmpty = true then none
        else some (p.1, personFilterSpec pset p.2)) = none := he
    show (if (truthySet tset && !setContains tset (pyLower p.1)) = true
          then acc
          else if (if truthySet pset then
              p.2.foldl (fun fpm pf =>
                if setContains pset (pyLower pf.1)
                then dictInsert fpm pf.1 pf.2 else fpm) []
            else p.2).isEmpty = true then acc
          else dictInsert acc p.1 (if truthySet pset then
              p.2.foldl (fun fpm pf =>
                if setContains pset (pyLower pf.1)
                then dictInsert fpm pf.1 pf.2 else fpm) []
            else p.2)) = acc
    rw [filteredPersons_eq_spec pset p.2 (hwf p hp)]
    by_cases hc : (truthySet tset && !setContains tset (pyLower p.1)) = true
    · rw [if_pos hc]
    · rw [if_neg hc] at he ⊢
      by_cases hemp : (personFilterSpec pset p.2).isEmpty = true
      · rw [if_pos hemp]
      · rw [if_neg hemp] at he
        exact absurd he (by simp)
  · intro acc p r hp he
    replace he : (if (truthySet tset && !setContains tset (pyLower p.1))
          = true then none
        else if (personFilterSpec pset p.2).isEmpty = true then none
        else some (p.1, personFilterSpec pset p.2)) = some r := he
    show (if (truthySet tset && !setContains tset (pyLower p.1)) = true
          then acc
          else if (if truthySet pset then
              p.2.foldl (fun fpm pf =>
                if setContains pset (pyLower pf.1)
                then dictInsert fpm pf.1 pf.2 else fpm) []
            else p.2).isEmpty = true then acc
          else dictInsert acc p.1 (if truthySet pset then
              p.2.foldl (fun fpm pf =>
                if setContains pset (pyLower pf.1)
                then dictInsert fpm pf.1 pf.2 else fpm) []
            else p.2)) = dictInsert acc r.1 r.2
    rw [filteredPersons_eq_spec pset p.2 (hwf p hp)]
    by_cases hc : (truthySet tset && !setContains tset (pyLower p.1)) = true
    · rw [if_pos hc] at he
      exact absurd he (by simp)
    · rw [if_neg hc] at he ⊢
      by_cases hemp : (personFilterSpec pset p.2).isEmpty = true
      · rw [if_pos hemp] at he
        exact absurd he (by simp)
      · rw [if_neg hemp] at he ⊢
        rw [← Option.some.inj he]

/-- Characterization of `apply_filters` on well-formed tables: the
resulting conjugation table is exactly the spec's three-level narrowing. -/
theorem apply_filters_conj (data : ScrapeData)
    (moods tenses persons : Option String)
    (hwf : wfConj data.conjugations = true) :
    (apply_filters data moods tenses persons false).conjugations
      = conjFilterSpec (_to_set moods) (_to_set tenses) (_to_set persons)
          data.conjugations := by
  rw [wfConj, Bool.and_eq_true] at hwf
  have hnd : (data.conjugations.map Prod.fst).Nodup :=
    of_decide_eq_true hwf.1
  have hall := List.all_eq_true.mp hwf.2
  show data.conjugations.foldl (fun new_conj mt =>
      if truthySet (_to_set moods)
          && !setContains (_to_set moods) (pyLower mt.1) then new_conj
      else
        let new_tenses_map := mt.2.foldl (fun ntm tp =>
          if truthySet (_to_set tenses)
              && !setContains (_to_set tenses) (pyLower tp.1) then ntm
          else
            let filtered_person_map :=
              if truthySet (_to_set persons) then
                tp.2.foldl (fun fpm pf =>
                  if setContains (_to_set persons) (pyLower pf.1)
                  then dictInsert fpm pf.1 pf.2 else fpm) []
              else tp.2
            if filtered_person_map.isEmpty then ntm
            else dictInsert ntm tp.1 filtered_person_map) []
        if new_tenses_map.isEmpty then new_conj
        else dictInsert new_conj mt.1 new_tenses_map) []
    = conjFilterSpec (_to_set moods) (_to_set tenses) (_to_set persons)
        data.conjugations
  rw [conjFilterSpec]
  have hsub : ∀ mt ∈ data.conjugations,
      (mt.2.map Prod.fst).Nodup ∧ ∀ tp ∈ mt.2, (tp.2.map Prod.fst).Nodup := by
    intro mt hmt
    have h := hall mt hmt
    rw [Bool.and_eq_true] at h
    refine ⟨of_decide_eq_true h.1, ?_⟩
    intro tp htp
    exact of_decide_eq_true (List.all_eq_true.mp h.2 tp htp)
  rw [emitFold_eq_filterMap _
    (fun mt =>
      if truthySet (_to_set moods)
          && !setContains (_to_set moods) (pyLower mt.1) then none
      else
        let ntm := tenseFilterSpec (_to_set tenses) (_to_set persons) mt.2
        if ntm.isEmpty then none else some (mt.1, ntm))
    ?_ data.conjugations [] hnd (fun p _ => rfl) ?_ ?_]
  · rw [List.nil_append]
  · intro p r he
    replace he : (if truthySet (_to_set moods)
          && !setContains (_to_set moods) (pyLower p.1) then none
        else if (tenseFilterSpec (_to_set tenses) (_to_set persons)
            p.2).isEmpty = true then none
        else some (p.1, tenseFilterSpec (_to_set tenses) (_to_set persons)
            p.2)) = some r := he
    by_cases hc : (truthySet (_to_set moods)
        && !setContains (_to_set moods) (pyLower p.1)) = true
    · rw [if_pos hc] at he
      exact absurd he (by simp)
    · rw [if_neg hc] at he
      by_cases hemp : (tenseFilterSpec (_to_set tenses) (_to_set persons)
          p.2).isEmpty = true
      · rw [if_pos hemp] at he
        exact absurd he (by simp)
      · rw [if_neg hemp] at he
        rw [← Option.some.inj he]
  · intro acc p hp he
    replace he : (if truthySet (_to_set moods)
          && !setContains (_to_set moods) (pyLower p.1) then none
        else if (tenseFilterSpec (_to_set tenses) (_to_set persons)
            p.2).isEmpty = true then none
        else some (p.1, tenseFilterSpec (_to_set tenses) (_to_set persons)
            p.2)) = none := he
    show (if truthySet (_to_set moods)
          && !setContains (_to_set moods) (pyLower p.1) then acc
        else if (p.2.foldl (fun ntm tp =>
            if truthySet (_to_set tenses)
                && !setContains (_to_set tenses) (pyLower tp.1) then ntm
            else
              let filtered_person_map :=
                if truthySet (_to_set persons) then
                  tp.2.foldl (fun fpm pf =>
                    if setContains (_to_set persons) (pyLower pf.1)
                    then dictInsert fpm pf.1 pf.2 else fpm) []
                else tp.2
              if filtered_person_map.isEmpty then ntm
              else dictInsert ntm tp.1 filtered_person_map) []).isEmpty = true
          then acc
        else dictInsert acc p.1 (p.2.foldl (fun ntm tp =>
            if truthySet (_to_set tenses)
                && !setContains (_to_set tenses) (pyLower tp.1) then ntm
            else
              let filtered_person_map :=
                if truthySet (_to_set persons) then
                  tp.2.foldl (fun fpm pf =>
                    if setContains (_to_set persons) (pyLower pf.1)
                    then dictInsert fpm pf.1 pf.2 else fpm) []
                else tp.2
              if filtered_person_map.isEmpty then ntm
              else dictInsert ntm tp.1 filtered_person_map) [])) = acc
    rw [tenseFold_eq_spec _ _ p.2 (hsub p hp).1 (hsub p hp).2]
    by_cases hc : (truthySet (_to_set moods)
        && !setContains (_to_set moods) (pyLower p.1)) = true
    · rw [if_pos hc]
    · rw [if_neg hc] at he ⊢
      by_cases hemp : (tenseFilterSpec (_to_set tenses) (_to_set persons)
          p.2).isEmpty = true
      · rw [if_pos hemp]
      · rw [if_neg hemp] at he
        exact absurd he (by simp)
  · intro acc p r hp he
    replace he : (if truthySet (_to_set moods)
          && !setContains (_to_set moods) (pyLower p.1) then none
        else if (tenseFilterSpec (_to_set tenses) (_to_set persons)
            p.2).isEmpty = true then none
        else some (p.1, tenseFilterSpec (_to_set tenses) (_to_set persons)
            p.2)) = some r := he
    show (if truthySet (_to_set moods)
          && !setContains (_to_set moods) (pyLower p.1) then acc
        else if (p.2.foldl (fun ntm tp =>
            if truthySet (_to_set tenses)
                && !setContains (_to_set tenses) (pyLower tp.1) then ntm
            else
              let filtered_person_map :=
                if truthySet (_to_set persons) then
                  tp.2.foldl (fun fpm pf =>
                    if setContains (_to_set persons) (pyLower pf.1)
                    then dictInsert fpm pf.1 pf.2 else fpm) []
                else tp.2
              if filtered_person_map.isEmpty then ntm
              else dictInsert ntm tp.1 filtered_person_map) []).isEmpty = true
          then acc
        else dictInsert acc p.1 (p.2.foldl (fun ntm tp =>
            if truthySet (_to_set tenses)
                && !setContains (_to_set tenses) (pyLower tp.1) then ntm
            else
              let filtered_person_map :=
                if truthySet (_to_set persons) then
                  tp.2.foldl (fun fpm pf =>
                    if setContains (_to_set persons) (pyLower pf.1)
                    then dictInsert fpm pf.1 pf.2 else fpm) []
                else tp.2
              if filtered_person_map.isEmpty then ntm
              else dictInsert ntm tp.1 filtered_person_map) []))
      = dictInsert acc r.1 r.2
    rw [tenseFold_eq_spec _ _ p.2 (hsub p hp).1 (hsub p hp).2]
    by_cases hc : (truthySet (_to_set moods)
        && !setContains (_to_set moods) (pyLower p.1)) = true
    · rw [if_pos hc] at he
      exact absurd he (by simp)
    · rw [if_neg hc] at he ⊢
      by_cases hemp : (tenseFilterSpec (_to_set tenses) (_to_set persons)
          p.2).isEmpty = true
      · rw [if_pos hemp] at he
        exact absurd he (by simp)
      · rw [if_neg hemp] at he ⊢
        rw [← Option.some.inj he]

theorem filterMap_eq_self_of {α : Type} (f : α → Option α) :
    ∀ (l : List α), (∀ x ∈ l, f x = some x) → l.filterMap f = l := by
  intro l
  induction l with
  | nil => intro _; rfl
  | cons x l' ih =>
    intro h
    rw [List.filterMap_cons, h x (List.mem_cons_self _ _),
      ih (fun y hy => h y (List.mem_cons_of_mem _ hy))]

theorem personFilterSpec_id (pset : Option (List String)) (pm : PersonMap)
    (hp : ∀ person ∈ pm.map Prod.fst,
      truthySet pset = true → setContains pset (pyLower person) = true) :
    personFilterSpec pset pm = pm := by
  rw [personFilterSpec]
  by_cases ht : truthySet pset = true
  · rw [if_pos ht]
    rw [List.filter_eq_self]
    intro p hpmem
    exact hp p.1 (List.mem_map.mpr ⟨p, hpmem, rfl⟩) ht
  · rw [if_neg ht]

theorem tenseFilterSpec_id (tset pset : Option (List String)) (tm : TenseDict)
    (hne : ∀ tp ∈ tm, tp.2.isEmpty = false)
    (ht : ∀ tense ∈ tm.map Prod.fst,
      truthySet tset = true → setContains tset (pyLower tense) = true)
    (hp : ∀ tp ∈ tm, ∀ person ∈ tp.2.map Prod.fst,
      truthySet pset = true → setContains pset (pyLower person) = true) :
    tenseFilterSpec tset pset tm = tm := by
  rw [tenseFilterSpec]
  apply filterMap_eq_self_of
  intro tp htp
  have hcond : (truthySet tset && !setContains tset (pyLower tp.1)) = false := by
    by_cases htr : truthySet tset = true
    · rw [htr, ht tp.1 (List.mem_map.mpr ⟨tp, htp, rfl⟩) htr]
      rfl
    · rw [Bool.eq_false_iff.mpr htr]
      rfl

  rw [if_neg (by rw [hcond]; exact Bool.false_ne_true)]
  show (if (personFilterSpec pset tp.2).isEmpty = true then none
        else some (tp.1, personFilterSpec pset tp.2)) = some tp
  rw [personFilterSpec_id pset tp.2 (hp tp htp), if_neg (by
    rw [hne tp htp]; exact Bool.false_ne_true), Prod.mk.eta]

theorem conjFilterSpec_id (mset tset pset : Option (List String)) (c : Conj)
    (hne : ∀ mt ∈ c, mt.2.isEmpty = false ∧ ∀ tp ∈ mt.2, tp.2.isEmpty = false)
    (hm : ∀ mood ∈ c.map Prod.fst,
      truthySet mset = true → setContains mset (pyLower mood) = true)
    (ht : ∀ mt ∈ c, ∀ tense ∈ mt.2.map Prod.fst,
      truthySet tset = true → setContains tset (pyLower tense) = true)
    (hp : ∀ mt ∈ c, ∀ tp ∈ mt.2, ∀ person ∈ tp.2.map Prod.fst,
      truthySet pset = true → setContains pset (pyLower person) = true) :
    conjFilterSpec mset tset pset c = c := by
  rw [conjFilterSpec]
  apply filterMap_eq_self_of
  intro mt hmt
  have hcond : (truthySet mset && !setContains mset (pyLower mt.1)) = false := by
    by_cases htr : truthySet mset = true
    · rw [htr, hm mt.1 (List.mem_map.mpr ⟨mt, hmt, rfl⟩) htr]
      rfl
    · rw [Bool.eq_false_iff.mpr htr]
      rfl
  rw [if_neg (by rw [hcond]; exact Bool.false_ne_true)]
  show (if (tenseFilterSpec tset pset mt.2).isEmpty = true then none
        else some (mt.1, tenseFilterSpec tset pset mt.2)) = some mt
  rw [tenseFilterSpec_id tset pset mt.2 (hne mt hmt).2 (ht mt hmt)
    (hp mt hmt), if_neg (by
      rw [(hne mt hmt).1]; exact Bool.false_ne_true), Prod.mk.eta]

/-- C7 (amended): with the `full` flag no narrowing occurs; on well-formed
tables narrowing is exactly the spec's three-level, case-insensitive
filtering (tenses whose person map becomes empty are dropped, then moods
with no remaining tenses); when the selections cover every key present AND
no tense or mood is already empty, narrowing is the identity; a mood
selection disjoint from all present moods empties the table; and key
order is preserved at every level (each level's keys form a sublist of
the source keys). -/
theorem apply_filters_spec (data : ScrapeData)
    (moods tenses persons : Option String) :
    (apply_filters data moods tenses persons true = data)
    ∧ (wfConj data.conjugations = true →
        (apply_filters data moods tenses persons false).conjugations
          = conjFilterSpec (_to_set moods) (_to_set tenses) (_to_set persons)
              data.conjugations)
    ∧ (wfConj data.conjugations = true →
       noEmptyConj data.conjugations = true →
       (∀ mood ∈ data.conjugations.map Prod.fst,
          truthySet (_to_set moods) = true →
          setContains (_to_set moods) (pyLower mood) = true) →
       (∀ mt ∈ data.conjugations, ∀ tense ∈ mt.2.map Prod.fst,
          truthySet (_to_set tenses) = true →
          setContains (_to_set tenses) (pyLower tense) = true) →
       (∀ mt ∈ data.conjugations, ∀ tp ∈ mt.2, ∀ person ∈ tp.2.map Prod.fst,
          truthySet (_to_set persons) = true →
          setContains (_to_set persons) (pyLower person) = true) →
       apply_filters data moods tenses persons false = data)
    ∧ (truthySet (_to_set moods) = true →
       (∀ mood ∈ data.conjugations.map Prod.fst,
          setContains (_to_set moods) (pyLower mood) = false) →
       (apply_filters data moods tenses persons false).conjugations = [])
    ∧ (wfConj data.conjugations = true →
       List.Sublist
         (((apply_filters data moods tenses persons false).conjugations).map
           Prod.fst)
         (data.conjugations.map Prod.fst)
       ∧ ∀ mntm ∈ (apply_filters data moods tenses persons false).conjugations,
           ∃ tm, (mntm.1, tm) ∈ data.conjugations
             ∧ List.Sublist (mntm.2.map Prod.fst) (tm.map Prod.fst)
             ∧ ∀ tnpm ∈ mntm.2, ∃ pm, (tnpm.1, pm) ∈ tm
                 ∧ List.Sublist (tnpm.2.map Prod.fst) (pm.map Prod.fst)) := by
  have hmoodKey : ∀ (p : String × TenseDict) (r : String × TenseDict),
      (fun mt =>
        if truthySet (_to_set moods)
            && !setContains (_to_set moods) (pyLower mt.1) then none
        else
          let ntm := tenseFilterSpec (_to_set tenses) (_to_set persons) mt.2
          if ntm.isEmpty then none else some (mt.1, ntm)) p = some r
      → r.1 = p.1 := by
    intro p r he
    replace he : (if truthySet (_to_set moods)
          && !setContains (_to_set moods) (pyLower p.1) then none
        else if (tenseFilterSpec (_to_set tenses) (_to_set persons)
            p.2).isEmpty = true then none
        else some (p.1, tenseFilterSpec (_to_set tenses) (_to_set persons)
            p.2)) = some r := he
    by_cases hc : (truthySet (_to_set moods)
        && !setContains (_to_set moods) (pyLower p.1)) = true
    · rw [if_pos hc] at he
      exact absurd he (by simp)
    · rw [if_neg hc] at he
      by_cases hemp : (tenseFilterSpec (_to_set tenses) (_to_set persons)
          p.2).isEmpty = true
      · rw [if_pos hemp] at he
        exact absurd he (by simp)
      · rw [if_neg hemp] at he
        rw [← Option.some.inj he]
  have htenseKey : ∀ (p : String × PersonMap) (r : String × PersonMap),
      (fun tp =>
        if truthySet (_to_set tenses)
            && !setContains (_to_set tenses) (pyLower tp.1) then none
        else
          let f := personFilterSpec (_to_set persons) tp.2
          if f.isEmpty then none else some (tp.1, f)) p = some r
      → r.1 = p.1 := by
    intro p r he
    replace he : (if truthySet (_to_set tenses)
          && !setContains (_to_set tenses) (pyLower p.1) then none
        else if (personFilterSpec (_to_set persons) p.2).isEmpty = true
        then none
        else some (p.1, personFilterSpec (_to_set persons) p.2)) = some r := he
    by_cases hc : (truthySet (_to_set tenses)
        && !setContains (_to_set tenses) (pyLower p.1)) = true
    · rw [if_pos hc] at he
      exact absurd he (by simp)
    · rw [if_neg hc] at he
      by_cases hemp : (personFilterSpec (_to_set persons) p.2).isEmpty = true
      · rw [if_pos hemp] at he
        exact absurd he (by simp)
      · rw [if_neg hemp] at he
        rw [← Option.some.inj he]
  refine ⟨rfl, apply_filters_conj data moods tenses persons, ?_, ?_, ?_⟩
  · intro hwf hne hm ht hp
    have hconj := apply_filters_conj data moods tenses persons hwf
    have hnelist : ∀ mt ∈ data.conjugations,
        mt.2.isEmpty = false ∧ ∀ tp ∈ mt.2, tp.2.isEmpty = false := by
      intro mt hmt
      rw [noEmptyConj] at hne
      have h := List.all_eq_true.mp hne mt hmt
      rw [Bool.and_eq_true] at h
      refine ⟨by
        have := h.1
        rw [Bool.not_eq_true'] at this
        exact this, ?_⟩
      intro tp htp
      have := List.all_eq_true.mp h.2 tp htp
      rw [Bool.not_eq_true'] at this
      exact this
    have hid := conjFilterSpec_id (_to_set moods) (_to_set tenses)
      (_to_set persons) data.conjugations hnelist hm ht hp
    have h1 : apply_filters data moods tenses persons false
        = { data with conjugations :=
              (apply_filters data moods tenses persons false).conjugations } :=
      rfl
    rw [h1, hconj, hid]
  · intro htr hdis
    have h0 : (apply_filters data moods tenses persons false).conjugations
        = data.conjugations.foldl (fun new_conj mt =>
          if truthySet (_to_set moods)
              && !setContains (_to_set moods) (pyLower mt.1) then new_conj
          else
            let new_tenses_map := mt.2.foldl (fun ntm tp =>
              if truthySet (_to_set tenses)
                  && !setContains (_to_set tenses) (pyLower tp.1) then ntm
              else
                let filtered_person_map :=
                  if truthySet (_to_set persons) then
                    tp.2.foldl (fun fpm pf =>
                      if setContains (_to_set persons) (pyLower pf.1)
                      then dictInsert fpm pf.1 pf.2 else fpm) []
                  else tp.2
                if filtered_person_map.isEmpty then ntm
                else dictInsert ntm tp.1 filtered_person_map) []
            if new_tenses_map.isEmpty then new_conj
            else dictInsert new_conj mt.1 new_tenses_map) [] := rfl
    rw [h0]
    apply foldl_skip
    intro acc mt hmt
    have hcond : (truthySet (_to_set moods)
        && !setContains (_to_set moods) (pyLower mt.1)) = true := by
      rw [htr, hdis mt.1 (List.mem_map.mpr ⟨mt, hmt, rfl⟩)]
      rfl
    show (if truthySet (_to_set moods)
          && !setContains (_to_set moods) (pyLower mt.1) then acc
        else _) = acc
    rw [if_pos hcond]
  · intro hwf
    have hconj := apply_filters_conj data moods tenses persons hwf
    rw [hconj, conjFilterSpec]
    constructor
    · exact keys_filterMap_sublist _ hmoodKey data.conjugations
    · intro mntm hmem
      rw [List.mem_filterMap] at hmem
      obtain ⟨mt, hmt, he⟩ := hmem
      replace he : (if truthySet (_to_set moods)
            && !setContains (_to_set moods) (pyLower mt.1) then none
          else if (tenseFilterSpec (_to_set tenses) (_to_set persons)
              mt.2).isEmpty = true then none
          else some (mt.1, tenseFilterSpec (_to_set tenses) (_to_set persons)
              mt.2)) = some mntm := he
      by_cases hc : (truthySet (_to_set moods)
          && !setContains (_to_set moods) (pyLower mt.1)) = true
      · rw [if_pos hc] at he
        exact absurd he (by simp)
      · rw [if_neg hc] at he
        by_cases hemp : (tenseFilterSpec (_to_set tenses) (_to_set persons)
            mt.2).isEmpty = true
        · rw [if_pos hemp] at he
          exact absurd he (by simp)
        · rw [if_neg hemp] at he
          have hmv := Option.some.inj he
          refine ⟨mt.2, ?_, ?_, ?_⟩
          · rw [← hmv]
            show (mt.1, mt.2) ∈ _
            rw [Prod.mk.eta]
            exact hmt
          · rw [← hmv]
            show List.Sublist ((tenseFilterSpec (_to_set tenses)
              (_to_set persons) mt.2).map Prod.fst) (mt.2.map Prod.fst)
            rw [tenseFilterSpec]
            exact keys_filterMap_sublist _ htenseKey mt.2
          · intro tnpm htn
            rw [← hmv] at htn
            replace htn : tnpm ∈ tenseFilterSpec (_to_set tenses)
              (_to_set persons) mt.2 := htn
            rw [tenseFilterSpec, List.mem_filterMap] at htn
            obtain ⟨tp, htp, he2⟩ := htn
            replace he2 : (if truthySet (_to_set tenses)
                  && !setContains (_to_set tenses) (pyLower tp.1) then none
                else if (personFilterSpec (_to_set persons) tp.2).isEmpty
                  = true then none
                else some (tp.1, personFilterSpec (_to_set persons) tp.2))
                = some tnpm := he2
            by_cases hc2 : (truthySet (_to_set tenses)
                && !setContains (_to_set tenses) (pyLower tp.1)) = true
            · rw [if_pos hc2] at he2
              exact absurd he2 (by simp)
            · rw [if_neg hc2] at he2
              by_cases hemp2 : (personFilterSpec (_to_set persons)
                  tp.2).isEmpty = true
              · rw [if_pos hemp2] at he2
                exact absurd he2 (by simp)
              · rw [if_neg hemp2] at he2
                have htv := Option.some.inj he2
                refine ⟨tp.2, ?_, ?_⟩
                · rw [← htv]
                  show (tp.1, tp.2) ∈ _
                  rw [Prod.mk.eta]
                  exact htp
                · rw [← htv]
                  show List.Sublist ((personFilterSpec (_to_set persons)
                    tp.2).map Prod.fst) (tp.2.map Prod.fst)
                  rw [personFilterSpec]
                  by_cases htr : truthySet (_to_set persons) = true
                  · rw [if_pos htr]
                    exact (List.filter_sublist _).map Prod.fst
                  · rw [if_neg htr]

/-- C7 counterexample to the claim as stated: a scrape result may contain
a tense-less mood (a mood section with no tables); narrowing it with the
selection equal to its full mood key set drops the mood, so the result is
NOT equal to the unnarrowed data. -/
theorem apply_filters_roundtrip_counterexample :
    apply_filters dataC7Degenerate (some "indicativo") none none false
      ≠ dataC7Degenerate
    ∧ (apply_filters dataC7Degenerate (some "indicativo") none none
        false).conjugations = []
    ∧ dataC7Degenerate.conjugations = [("indicativo", [])] :=
  ⟨by decide, by decide, rfl⟩

/-- C7 witness: on a well-formed, nowhere-empty result, selections
covering every key (case-insensitively: person `"(Lei)"` selected as
`"(lei)"`) round-trip; a disjoint mood selection empties the table; the
full flag bypasses narrowing. -/
theorem apply_filters_spec_witness :
    apply_filters dataC7 (some "indicativo") (some "presente")
        (some "io,(lei)") false = dataC7
    ∧ (apply_filters dataC7 (some "congiuntivo") none none
        false).conjugations = []
    ∧ apply_filters dataC7 none none none true = dataC7 :=
  ⟨(apply_filters_spec dataC7 (some "indicativo") (some "presente")
      (some "io,(lei)")).2.2.1 (by decide) (by decide) (by decide)
      (by decide) (by decide),
   (apply_filters_spec dataC7 (some "congiuntivo") none none).2.2.2.1
      (by decide) (by decide),
   (apply_filters_spec dataC7 none none none).1⟩

/-! ## C1: the cell line splitter -/

/-- `splitSepF` is independent of the fuel once it covers the input
length. -/
theorem splitSepF_fuelInv (sep : List Char) :
    ∀ (f1 : Nat) (f2 : Nat) (l : List Char), l.length ≤ f1 → l.length ≤ f2 →
      splitSepF sep f1 l = splitSepF sep f2 l := by
  intro f1
  induction f1 with
  | zero =>
    intro f2 l hl1 _
    have h0 : l = [] := List.eq_nil_of_length_eq_zero (Nat.le_zero.mp hl1)
    subst h0
    cases f2 <;> rfl
  | succ g ih =>
    intro f2 l hl1 hl2
    cases l with
    | nil => cases f2 <;> rfl
    | cons c rest =>
      cases f2 with
      | zero => exact absurd hl2 (by simp)
      | succ h =>
        rw [splitSepF, splitSepF]
        by_cases hcond : sep.isPrefixOf (c :: rest) = true ∧ sep ≠ []
        · rw [if_pos hcond, if_pos hcond]
          have hsl : 1 ≤ sep.length :=
            List.length_pos.mpr hcond.2
          have hdl : ((c :: rest).drop sep.length).length ≤ g := by
            rw [List.length_drop]
            simp only [List.length_cons] at hl1 ⊢
            omega
          have hdl2 : ((c :: rest).drop sep.length).length ≤ h := by
            rw [List.length_drop]
            simp only [List.length_cons] at hl2 ⊢
            omega
          rw [ih h _ hdl hdl2]
        · rw [if_neg hcond, if_neg hcond]
          have hrl : rest.length ≤ g := by
            simp only [List.length_cons] at hl1
            omega
          have hrl2 : rest.length ≤ h := by
            simp only [List.length_cons] at hl2
            omega
          rw [ih h rest hrl hrl2]

theorem splitSepF_ne_nil (sep : List Char) :
    ∀ (f : Nat) (l : List Char), splitSepF sep f l ≠ [] := by
  intro f
  induction f with
  | zero => intro l; simp [splitSepF]
  | succ g ih =>
    intro l
    cases l with
    | nil => simp [splitSepF]
    | cons c rest =>
      rw [splitSepF]
      by_cases hcond : sep.isPrefixOf (c :: rest) = true ∧ sep ≠ []
      · rw [if_pos hcond]
        simp
      · rw [if_neg hcond]
        cases hs : splitSepF sep g rest with
        | nil => simp
        | cons p ps => simp

theorem splitL_ne_nil (sep l : List Char) : splitL sep l ≠ [] :=
  splitSepF_ne_nil sep _ l

/-- Unfolding `splitL` at a separator occurrence. -/
theorem splitL_pos (sep l : List Char) (hpre : sep.isPrefixOf l = true)
    (hsep : sep ≠ []) (hl : l ≠ []) :
    splitL sep l = [] :: splitL sep (l.drop sep.length) := by
  cases l with
  | nil => exact absurd rfl hl
  | cons c rest =>
    show splitSepF sep ((c :: rest).length + 1) (c :: rest) = _
    rw [splitSepF, if_pos ⟨hpre, hsep⟩]
    have hsl : 1 ≤ sep.length := List.length_pos.mpr hsep
    have h1 : ((c :: rest).drop sep.length).length ≤ (c :: rest).length := by
      rw [List.length_drop]
      omega
    rw [splitSepF_fuelInv sep _ (((c :: rest).drop sep.length).length + 1) _
      h1 (Nat.le_succ _)]
    rfl

/-- Unfolding `splitL` away from a separator occurrence. -/
theorem splitL_neg (sep : List Char) (c : Char) (rest : List Char)
    (hcond : ¬(sep.isPrefixOf (c :: rest) = true ∧ sep ≠ [])) :
    splitL sep (c :: rest)
      = (match splitL sep rest with
         | [] => [[c]]
         | p :: ps => (c :: p) :: ps) := by
  show splitSepF sep ((c :: rest).length + 1) (c :: rest) = _
  rw [splitSepF, if_neg hcond]
  rfl

/-- If the input splits as `[a, []]` on `a ++ sep`, then `a` alone holds no
separator occurrence. -/
theorem splitL_self_of_append (sep : List Char) (hsep : sep ≠ []) :
    ∀ (a : List Char), splitL sep (a ++ sep) = [a, []] →
      splitL sep a = [a] := by
  intro a
  induction a with
  | nil => intro _; rfl
  | cons c a' ih =>
    intro h
    rw [List.cons_append] at h
    have hnpre : ¬(sep.isPrefixOf (c :: (a' ++ sep)) = true ∧ sep ≠ []) := by
      rintro ⟨hpre, _⟩
      rw [splitL_pos sep _ hpre hsep (by simp)] at h
      simp at h
    rw [splitL_neg sep c (a' ++ sep) hnpre] at h
    have hnnil := splitL_ne_nil sep (a' ++ sep)
    rcases hs : splitL sep (a' ++ sep) with _ | ⟨p, ps⟩
    · exact absurd hs hnnil
    · rw [hs] at h
      simp only [List.cons.injEq] at h
      obtain ⟨⟨hcp, hpa⟩, hps⟩ := h
      have h' : splitL sep (a' ++ sep) = [a', []] := by
        rw [hs, hpa, hps]
      have hnpre2 : ¬(sep.isPrefixOf (c :: a') = true ∧ sep ≠ []) := by
        rintro ⟨hpre, _⟩
        apply hnpre
        refine ⟨?_, hsep⟩
        rw [List.isPrefixOf_iff_prefix] at hpre ⊢
        exact hpre.trans ⟨sep, by rw [List.cons_append]⟩
      rw [splitL_neg sep c a' hnpre2, ih h']

/-- Prefix tests only look at the first `sep.length` characters. -/
theorem isPrefixOf_append_long (sep x r : List Char)
    (hx : sep.length ≤ x.length) :
    sep.isPrefixOf (x ++ r) = sep.isPrefixOf x := by
  rw [Bool.eq_iff_iff, List.isPrefixOf_iff_prefix, List.isPrefixOf_iff_prefix,
    List.prefix_iff_eq_take, List.prefix_iff_eq_take,
    List.take_append_of_le_length hx]

/-- Cancellation: one leading segment with its separator peels off. -/
theorem splitL_append_sep (sep : List Char) (hsep : sep ≠ []) :
    ∀ (a r : List Char), splitL sep (a ++ sep) = [a, []] →
      splitL sep (a ++ sep ++ r) = a :: splitL sep r := by
  intro a
  induction a with
  | nil =>
    intro r _
    rw [List.nil_append]
    have hpre : sep.isPrefixOf (sep ++ r) = true := by
      rw [List.isPrefixOf_iff_prefix]
      exact ⟨r, rfl⟩
    have hne : sep ++ r ≠ [] := by
      cases sep with
      | nil => exact absurd rfl hsep
      | cons s0 stail => simp
    rw [splitL_pos sep _ hpre hsep hne, List.drop_left]
  | cons c a' ih =>
    intro r h
    rw [List.cons_append] at h
    have hnpre : ¬(sep.isPrefixOf (c :: (a' ++ sep)) = true ∧ sep ≠ []) := by
      rintro ⟨hpre, _⟩
      rw [splitL_pos sep _ hpre hsep (by simp)] at h
      simp at h
    rw [splitL_neg sep c (a' ++ sep) hnpre] at h
    have hnnil := splitL_ne_nil sep (a' ++ sep)
    rcases hs : splitL sep (a' ++ sep) with _ | ⟨p, ps⟩
    · exact absurd hs hnnil
    · rw [hs] at h
      simp only [List.cons.injEq] at h
      obtain ⟨⟨hcp, hpa⟩, hps⟩ := h
      have h' : splitL sep (a' ++ sep) = [a', []] := by
        rw [hs, hpa, hps]
      have hlong : sep.length ≤ (c :: (a' ++ sep)).length := by
        simp only [List.length_cons, List.length_append]
        omega
      have hnpre3 : ¬(sep.isPrefixOf (c :: (a' ++ sep ++ r)) = true
          ∧ sep ≠ []) := by
        rintro ⟨hpre, _⟩
        apply hnpre
        refine ⟨?_, hsep⟩
        have : (c :: (a' ++ sep ++ r)) = (c :: (a' ++ sep)) ++ r := by
          simp
        rw [this, isPrefixOf_append_long sep _ r hlong] at hpre
        exact hpre
      show splitL sep (c :: (a' ++ sep ++ r)) = _
      rw [splitL_neg sep _ _ hnpre3, ih r h']

theorem splitToks_ne_nil : ∀ (ts : List Tok), splitToks ts ≠ [] := by
  intro ts
  induction ts with
  | nil => simp [splitToks]
  | cons t rest ih =>
    cases t with
    | brk => simp [splitToks]
    | str s =>
      rw [splitToks]
      cases hs : splitToks rest with
      | nil => simp
      | cons p ps => simp

theorem interL_cons (sep s : List Char) (l : List (List Char)) (hl : l ≠ []) :
    interL sep (s :: l) = s ++ sep ++ interL sep l := by
  cases l with
  | nil => exact absurd rfl hl
  | cons x xs => rfl

/-- The separator-interspersed segments re-render the token stream. -/
theorem interL_splitToks (ts : List Tok) :
    interL TOKENL (splitToks ts) = renderToks ts := by
  induction ts with
  | nil => rfl
  | cons t rest ih =>
    cases t with
    | brk =>
      rw [splitToks, renderToks,
        interL_cons TOKENL [] (splitToks rest) (splitToks_ne_nil rest),
        List.nil_append, ih]
    | str s =>
      rw [splitToks, renderToks]
      rcases hs : splitToks rest with _ | ⟨p, ps⟩
      · exact absurd hs (splitToks_ne_nil rest)
      · rw [hs] at ih
        cases ps with
        | nil =>
          show interL TOKENL [s.data ++ p] = _
          rw [← ih]
          rfl
        | cons p2 ps' =>
          rw [interL_cons TOKENL (s.data ++ p) (p2 :: ps') (by simp)]
          rw [← ih, interL_cons TOKENL p (p2 :: ps') (by simp)]
          simp [List.append_assoc]

theorem renderToks_append (t1 t2 : List Tok) :
    renderToks (t1 ++ t2) = renderToks t1 ++ renderToks t2 := by
  induction t1 with
  | nil => rfl
  | cons t rest ih =>
    cases t with
    | brk => rw [List.cons_append, renderToks, renderToks, ih,
        List.append_assoc]
    | str s => rw [List.cons_append, renderToks, renderToks, ih,
        List.append_assoc]

mutual
theorem nodeTextBr_renders (n : Node) :
    (nodeTextBr n).data = renderToks (nodeToks n) := by
  cases n with
  | text s =>
    show s.data = renderToks [Tok.str s]
    rw [renderToks, renderToks, List.append_nil]
  | br =>
    show TOKEN.data = renderToks [Tok.brk]
    rw [renderToks, renderToks, List.append_nil]
    rfl
  | elem tag cs =>
    show (nodesTextBr cs).data = renderToks (nodesToks cs)
    exact nodesTextBr_renders cs

theorem nodesTextBr_renders (ns : NodeList) :
    (nodesTextBr ns).data = renderToks (nodesToks ns) := by
  cases ns with
  | nil => rfl
  | cons n ns' =>
    show (nodeTextBr n ++ nodesTextBr ns').data = _
    rw [String.data_append, nodeTextBr_renders n, nodesTextBr_renders ns',
      nodesToks, renderToks_append]
end

/-- Full cancellation: splitting the interspersed segments on the
separator recovers the segments, provided no segment lets the separator
occur early. -/
theorem splitL_interL (sep : List Char) (hsep : sep ≠ []) :
    ∀ (segs : List (List Char)), segs ≠ [] →
      (∀ seg ∈ segs, splitL sep (seg ++ sep) = [seg, []]) →
      splitL sep (interL sep segs) = segs := by
  intro segs
  induction segs with
  | nil => intro h _; exact absurd rfl h
  | cons s segs' ih =>
    intro _ H
    cases segs' with
    | nil =>
      show splitL sep s = [s]
      exact splitL_self_of_append sep hsep s (H s (List.mem_cons_self _ _))
    | cons s2 rest =>
      rw [interL_cons sep s (s2 :: rest) (by simp),
        splitL_append_sep sep hsep s _ (H s (List.mem_cons_self _ _)),
        ih (by simp) (fun seg hseg => H seg (List.mem_cons_of_mem _ hseg))]

/-- C1 (amended): for every markup cell whose between-break text segments
nowhere contain an early occurrence of the internal sentinel `<<<BR>>>`
(in particular, whenever the cell's text never contains the sentinel),
`lines_from_td_br_only` returns exactly the logical lines obtained by
splitting the cell's text at explicit `<br>` elements and nowhere else:
inline formatting elements never introduce a split and their text is
concatenated with the surrounding text, each fragment is
whitespace-normalized, and empty fragments are dropped. -/
theorem lines_from_td_br_only_spec (td : NodeList)
    (H : ∀ seg ∈ segmentsL td, splitL TOKENL (seg ++ TOKENL) = [seg, []]) :
    lines_from_td_br_only td = specLines td := by
  have hdata : (nodesTextBr td).data = interL TOKENL (segmentsL td) := by
    rw [nodesTextBr_renders td, segmentsL, interL_splitToks]
  show ((splitL TOKENL (nodesTextBr td).data).map
      (fun l => _norm_spaces ⟨l⟩)).filter (fun p => p ≠ "")
    = specLines td
  rw [hdata,
    splitL_interL TOKENL (by decide) (segmentsL td)
      (splitToks_ne_nil _) H]
  rfl

/-- C1 counterexample to the claim as stated: for a cell whose text itself
contains the sentinel `<<<BR>>>` (with no `<br>` element at all), the code
splits at the sentinel occurrence while the specified behaviour is a
single unsplit line. -/
theorem lines_from_td_br_only_sentinel_counterexample :
    lines_from_td_br_only cellSentinel ≠ specLines cellSentinel
    ∧ lines_from_td_br_only cellSentinel = ["x", "y"]
    ∧ specLines cellSentinel = ["x<<<BR>>>y"] :=
  ⟨by decide, by decide, by decide⟩

/-- C1 witness: the spec's own example — `"ho "` followed by two inline
elements `"mess"`, `"o"` — yields exactly `["ho messo"]`. -/
theorem lines_from_td_br_only_spec_witness :
    lines_from_td_br_only cellHoMesso = specLines cellHoMesso
    ∧ lines_from_td_br_only cellHoMesso = ["ho messo"]
    ∧ specLines (.cons (.text "a") (.cons .br (.cons (.text "b") .nil)))
      = ["a", "b"] :=
  ⟨lines_from_td_br_only_spec cellHoMesso (by decide),
   by decide, by decide⟩

end FlashCard

